import Mathlib

/-!
# Product-Key Memory layer: a verified shallow embedding

This file embeds the Product-Key Memory (`HashingMemory`) layer of the
repository into Lean.  Tensors are modelled as (nested) lists of rationals;
the batched, data-parallel tensor operations of the source are modelled
row by row.  `torch.topk` is modelled by sorting score/position pairs with a
deterministic tie order (larger score first, smaller position first on equal
scores — one admissible instance of the implementation-defined tie order) and
taking a prefix, wrapped in `Option` because `topk` raises when asked for more
elements than the dimension holds.
-/

namespace PKM

/-- Inner product of two vectors, the contraction performed by `F.linear`. -/
def dot (u v : List ℚ) : ℚ := (List.zipWith (· * ·) u v).sum

/-- Comparison on (score, position) pairs used to model `torch.topk`:
larger scores come first; equal scores are ordered by original position. -/
def pkLe (a b : ℚ × ℕ) : Prop := b.1 < a.1 ∨ (a.1 = b.1 ∧ a.2 ≤ b.2)

instance pkLe.decRel : DecidableRel pkLe := fun a b => by
  unfold pkLe; infer_instance

instance pkLe.total : IsTotal (ℚ × ℕ) pkLe := by
  constructor
  intro a b
  rcases lt_trichotomy a.1 b.1 with h | h | h
  · right; left; exact h
  · rcases Nat.le_total a.2 b.2 with h2 | h2
    · left; right; exact ⟨h, h2⟩
    · right; right; exact ⟨h.symm, h2⟩
  · left; left; exact h

instance pkLe.trans : IsTrans (ℚ × ℕ) pkLe := by
  constructor
  intro a b c hab hbc
  rcases hab with h | ⟨he, hi⟩
  · rcases hbc with h' | ⟨he', hi'⟩
    · exact Or.inl (h'.trans h)
    · exact Or.inl (he' ▸ h)
  · rcases hbc with h' | ⟨he', hi'⟩
    · exact Or.inl (he ▸ h')
    · exact Or.inr ⟨he.trans he', hi.trans hi'⟩

instance pkLe.antisymm : IsAntisymm (ℚ × ℕ) pkLe := by
  constructor
  intro a b hab hba
  rcases hab with h | ⟨he, hi⟩
  · rcases hba with h' | ⟨he', hi'⟩
    · exact absurd (h.trans h') (lt_irrefl _)
    · exact absurd h (he' ▸ lt_irrefl _)
  · rcases hba with h' | ⟨he', hi'⟩
    · exact absurd h' (he ▸ lt_irrefl _)
    · exact Prod.ext he (Nat.le_antisymm hi hi')

instance geTotalQ : IsTotal ℚ (· ≥ ·) := ⟨fun a b => (le_total b a)⟩

instance geTransQ : IsTrans ℚ (· ≥ ·) := ⟨fun _ _ _ h h' => le_trans h' h⟩

instance geAntisymmQ : IsAntisymm ℚ (· ≥ ·) := ⟨fun _ _ h h' => le_antisymm h' h⟩

/-- Scores paired with their positions, as `torch.topk` tracks them. -/
def enumScores (xs : List ℚ) : List (ℚ × ℕ) :=
  xs.enum.map (fun p => (p.2, p.1))

/-- The (value, position) pairs of the `k` largest entries of `xs`, sorted by
decreasing value.  Models the payload of a successful `tensor.topk(k)` call. -/
def topkList (k : ℕ) (xs : List ℚ) : List (ℚ × ℕ) :=
  (List.insertionSort pkLe (enumScores xs)).take k

/-- `tensor.topk(k)` along a dimension of size `xs.length`: raises (returns
`none`) when `k` exceeds the dimension. -/
def topk (k : ℕ) (xs : List ℚ) : Option (List (ℚ × ℕ)) :=
  if k ≤ xs.length then some (topkList k xs) else none

/-! ## The Product-Key Selector (`HashingMemory._get_indices`)

The source processes a whole `(bs, k_dim)` query batch at once; all its tensor
operations act independently on each batch row, so the embedding below is per
query row, and the batched callers (`get_indices`, `forward`) map it over the
rows.  `subkeys` is one head's slice of the key tensor, a list whose two
entries are the two half key sets. -/

/-- `scores1 = F.linear(q1, subkeys[0])` where `q1 = query[:, :half]`. -/
def scores1 (k_dim : ℕ) (subkeys : List (List (List ℚ))) (q : List ℚ) : List ℚ :=
  (subkeys.getD 0 []).map (dot (q.take (k_dim / 2)))

/-- `scores2 = F.linear(q2, subkeys[1])` where `q2 = query[:, half:]`. -/
def scores2 (k_dim : ℕ) (subkeys : List (List (List ℚ))) (q : List ℚ) : List ℚ :=
  (subkeys.getD 1 []).map (dot (q.drop (k_dim / 2)))

/-- The `knn × knn` cartesian sums
`scores1.view(knn,1) + scores2.view(1,knn)`, flattened row-major. -/
def allScores (t1 t2 : List (ℚ × ℕ)) : List ℚ :=
  (t1.map Prod.fst).flatMap (fun a => (t2.map Prod.fst).map (fun b => a + b))

/-- The combined indices `indices1.view(knn,1) * n_keys + indices2.view(1,knn)`,
flattened row-major. -/
def allIndices (n_keys : ℕ) (t1 t2 : List (ℚ × ℕ)) : List ℕ :=
  (t1.map Prod.snd).flatMap (fun a => (t2.map Prod.snd).map (fun b => a * n_keys + b))

/-- `HashingMemory._get_indices`, for one row of the query batch of one head:
split the query in two halves, score each against its sub-key set, take the
per-half top-`knn`, form all pairwise candidate sums and combined indices, and
keep the top-`knn` candidates (`indices = all_indices.gather(1, best_indices)`).
The `assert query.size(1) == k_dim` and the failure of `topk` on too-short
dimensions surface as `none`. -/
def get_indices_row (knn k_dim : ℕ) (subkeys : List (List (List ℚ)))
    (q : List ℚ) : Option (List ℚ × List ℕ) :=
  if q.length = k_dim then
    (topk knn (scores1 k_dim subkeys q)).bind fun t1 =>
    (topk knn (scores2 k_dim subkeys q)).bind fun t2 =>
    (topk knn (allScores t1 t2)).map fun best =>
      (best.map Prod.fst,
       best.map (fun p => (allIndices (subkeys.getD 0 []).length t1 t2).getD p.2 0))
  else none

/-- `scores1, indices1 = scores1.topk(knn)` for one query row. -/
def top1 (knn k_dim : ℕ) (subkeys : List (List (List ℚ))) (q : List ℚ) :
    List (ℚ × ℕ) :=
  topkList knn (scores1 k_dim subkeys q)

/-- `scores2, indices2 = scores2.topk(knn)` for one query row. -/
def top2 (knn k_dim : ℕ) (subkeys : List (List (List ℚ))) (q : List ℚ) :
    List (ℚ × ℕ) :=
  topkList knn (scores2 k_dim subkeys q)

/-- `scores, best_indices = torch.topk(all_scores, k=knn)` for one query row. -/
def bestPairs (knn k_dim : ℕ) (subkeys : List (List (List ℚ))) (q : List ℚ) :
    List (ℚ × ℕ) :=
  topkList knn (allScores (top1 knn k_dim subkeys q) (top2 knn k_dim subkeys q))

/-! ## Uniform key generation (`get_uniform_keys`) and key assembly

`np.random.RandomState(seed)` is external library code; what the layer relies
on is a stream that is a pure deterministic function of the seed, isolated per
call, with draws uniform in the requested interval.  `mix`/`unitDraw` below
are a concrete such pure stream; the float bound `1 / math.sqrt(dim)` is
modelled by the rational under-approximation `boundQ dim`, which keeps every
draw inside the real interval `[-1/sqrt dim, 1/sqrt dim]`. -/

/-- One draw of the seeded pseudo-random stream, mixed into `[0, 2^32)`. -/
def mix (seed k : ℕ) : ℕ :=
  (seed * 2654435761 + k * 40503 + 1013904223) % 4294967296

/-- A uniform draw in `[0, 1)` from the stream of `seed` at position `k`. -/
def unitDraw (seed k : ℕ) : ℚ := (mix seed k : ℚ) / 4294967296

/-- Rational stand-in for the float `bound = 1 / math.sqrt(dim)`, chosen just
below the real value `1 / sqrt dim`. -/
def boundQ (dim : ℕ) : ℚ := 1000000 / (Nat.sqrt (dim * 1000000000000) + 1)

/-- `get_uniform_keys(n_keys, dim, seed)`: `n_keys` vectors of dimension `dim`,
entry `(i, j)` being draw number `i * dim + j` of the fresh seeded stream,
scaled into `(-bound, bound)` as `rng.uniform(-bound, bound)` does. -/
def get_uniform_keys (n_keys dim seed : ℕ) : List (List ℚ) :=
  (List.range n_keys).map (fun i =>
    (List.range dim).map (fun j =>
      boundQ dim * (2 * unitDraw seed (i * dim + j) - 1)))

/-- `chunks n l` cuts `l` into consecutive blocks of `n` elements: the
grouping of a flat row-major buffer performed by `tensor.view`. -/
def chunks {α : Type} (n : ℕ) : List α → List (List α)
  | [] => []
  | x :: xs =>
    if n = 0 then [] else (x :: xs).take n :: chunks n ((x :: xs).drop n)
termination_by l => l.length
decreasing_by
  simp only [List.length_drop, List.length_cons]
  omega

/-- `HashingMemory.initialize_keys`, flat stage: the list comprehension
`[get_uniform_keys(n_keys, half, seed=2*i+j) for i in range(heads) for j in range(2)]`. -/
def init_keys_flat (heads n_keys half : ℕ) : List (List (List ℚ)) :=
  (List.range heads).flatMap (fun i =>
    (List.range 2).map (fun j => get_uniform_keys n_keys half (2 * i + j)))

/-- `HashingMemory.initialize_keys`: the flat stack viewed as
`(heads, 2, n_keys, half)` — consecutive pairs of blocks grouped per head. -/
def init_keys (heads n_keys half : ℕ) : List (List (List (List ℚ))) :=
  chunks 2 (init_keys_flat heads n_keys half)

/-! ## The memory module and `forward`

`forward` is modelled end to end on flattened row-major buffers.  Reshapes
(`view`) become `chunks`/`flatten`; the data-parallel per-row tensor
operations are mapped over the rows.  Two pieces of Python semantics matter
for the failure claims and are modelled explicitly: `np.prod` of an *empty*
shape tuple is the float `1.0` (not an integer), and `Tensor.view` raises a
`TypeError` when handed a float size argument. -/

/-- Python numbers as they flow through the shape arithmetic of `forward`. -/
inductive PyNum : Type
  | int (n : ℕ)
  | float (q : ℚ)

/-- `np.prod(shape_tuple)`: the float `1.0` on the empty tuple, the integer
product otherwise. -/
def np_prod : List ℕ → PyNum
  | [] => .float 1
  | l => .int l.prod

/-- `bs * self.heads` as Python evaluates it (float times int is float). -/
def PyNum.mulNat : PyNum → ℕ → PyNum
  | .int n, m => .int (n * m)
  | .float q, m => .float (q * m)

/-- A `Tensor.view` size argument must be an integer; a float raises
(`none`). -/
def PyNum.asIndex : PyNum → Option ℕ
  | .int n => some n
  | .float _ => none

/-- `F.dropout(x, p, training)`: the identity in evaluation mode; in training
mode coordinate `i` is zeroed when its uniform draw falls below `p`, and the
survivors are rescaled by `1 / (1 - p)` (inverted dropout). -/
def dropoutL (p : ℚ) (training : Bool) (rand : ℕ → ℚ) (xs : List ℚ) : List ℚ :=
  if training then xs.enum.map (fun e => if rand e.1 < p then 0 else e.2 / (1 - p))
  else xs

/-- One row through `nn.Linear`: `y_o = w_o · x + b_o`. -/
def linearRow (W : List (List ℚ)) (b : List ℚ) (x : List ℚ) : List ℚ :=
  List.zipWith (· + ·) (W.map (dot x)) b

/-- Evaluation-mode `nn.BatchNorm1d` is a fixed per-feature affine map; the
scale and shift derived from its weights and running statistics are injected
as parameters. -/
def bnEval (scale shift x : List ℚ) : List ℚ :=
  List.zipWith (fun v p => v * p.1 + p.2) x (scale.zip shift)

/-- `F.softmax` along the last dimension, the exponential abstracted as a
parameter `φ` (strictly positive, as `exp` is): weight `i` is
`φ xᵢ / Σⱼ φ xⱼ`. -/
def softmaxP (φ : ℚ → ℚ) (xs : List ℚ) : List ℚ :=
  (xs.map φ).map (fun e => e / (xs.map φ).sum)

/-- One bag of `nn.EmbeddingBag(mode='sum')` with `per_sample_weights`:
`Σ_k w_k · table[idx_k]`.  Out-of-range indices never occur in `forward`
(see C5); the default row is a zero row of the output dimension. -/
def embeddingBagSum (v_dim : ℕ) (table : List (List ℚ)) (idcs : List ℕ)
    (w : List ℚ) : List ℚ :=
  (idcs.zip w).foldl
    (fun acc p => List.zipWith (· + ·) acc
      ((table.getD p.1 (List.replicate v_dim 0)).map (fun x => p.2 * x)))
    (List.replicate v_dim 0)

/-- The state held by a constructed `HashingMemory` module. -/
structure Memory where
  input_dim : ℕ
  output_dim : ℕ
  k_dim : ℕ
  heads : ℕ
  knn : ℕ
  n_keys : ℕ
  input_dropout : ℚ
  query_dropout : ℚ
  value_dropout : ℚ
  keys : List (List (List (List ℚ)))
  values : List (List ℚ)
  proj_w : List (List ℚ)
  proj_b : List ℚ
  bn : Option (List ℚ × List ℚ)

/-- The recognized configuration options of the layer. -/
structure PMParams where
  sparse : Bool
  k_dim : ℕ
  heads : ℕ
  knn : ℕ
  n_keys : ℕ
  query_batchnorm : Bool
  input_dropout : ℚ
  query_dropout : ℚ
  value_dropout : ℚ

/-- `self.query_proj`: the affine projection, optionally followed by
(evaluation-mode) batch normalization. -/
def query_proj (M : Memory) (x : List ℚ) : List ℚ :=
  match M.bn with
  | none => linearRow M.proj_w M.proj_b x
  | some s => bnEval s.1 s.2 (linearRow M.proj_w M.proj_b x)

/-- `HashingMemory.__init__`: checks
`assert self.k_dim >= 2 and self.k_dim % 2 == 0` (surfacing as `none`),
generates the key tensor with `initialize_keys`, and stores the
externally-drawn value-table and projection initializations passed in as
arguments. -/
def memInit (input_dim output_dim : ℕ) (p : PMParams) (values0 : List (List ℚ))
    (w0 : List (List ℚ)) (b0 : List ℚ) (bn0 : List ℚ × List ℚ) : Option Memory :=
  if 2 ≤ p.k_dim ∧ p.k_dim % 2 = 0 then
    some { input_dim := input_dim, output_dim := output_dim, k_dim := p.k_dim,
           heads := p.heads, knn := p.knn, n_keys := p.n_keys,
           input_dropout := p.input_dropout, query_dropout := p.query_dropout,
           value_dropout := p.value_dropout,
           keys := init_keys p.heads p.n_keys (p.k_dim / 2),
           values := values0, proj_w := w0, proj_b := b0,
           bn := if p.query_batchnorm then some bn0 else none }
  else none

/-- `HashingMemory.forward` up to and including `get_indices`: the input
dimension assert, input dropout, the query projection over the flattened
batch, `query.view(bs * self.heads, self.k_dim)` (whose size argument is a
float — a `TypeError`, `none` — when the input had no leading batch
dimensions), query dropout, the reshape checks of `get_indices`, and the
per-head selector applied to each row of the `(bs*heads, k_dim)` query
tensor; row `r` is the query of head `r % heads`. -/
def read_selection (M : Memory) (training : Bool) (rIn rQ : ℕ → ℚ)
    (shape : List ℕ) (data : List ℚ) :
    Option (List ℕ × List (List ℚ × List ℕ)) :=
  if shape.getLast? = some M.input_dim then
    ((np_prod shape.dropLast).mulNat M.heads).asIndex.bind (fun m =>
      if ((chunks M.input_dim (dropoutL M.input_dropout training rIn data)).map
          (query_proj M)).flatten.length = m * M.k_dim then
        if m % M.heads = 0 then
          ((chunks M.k_dim (dropoutL M.query_dropout training rQ
            ((chunks M.input_dim (dropoutL M.input_dropout training rIn data)).map
              (query_proj M)).flatten)).enum.mapM
            (fun e => get_indices_row M.knn M.k_dim
              (M.keys.getD (e.1 % M.heads) []) e.2)).bind (fun outs =>
                some (shape.dropLast, outs))
        else none
      else none)
  else none

/-- `HashingMemory.forward`: selection, softmax over each head's `knn`
scores, the `view(bs, heads * knn)` merges of indices and weights, the
weighted `EmbeddingBag` retrieval, value dropout, and the final reshape
(performed only when the input had at least two leading dimensions). -/
def forward (M : Memory) (training : Bool) (rIn rQ rV : ℕ → ℚ) (φ : ℚ → ℚ)
    (shape : List ℕ) (data : List ℚ) : Option (List ℕ × List ℚ) :=
  (read_selection M training rIn rQ shape data).bind (fun s =>
    some (if 2 ≤ s.1.length then s.1 ++ [M.output_dim]
        else [(((chunks (M.heads * M.knn) (s.2.map (fun o => o.2)).flatten).zip
          (chunks (M.heads * M.knn) (s.2.map (fun o => softmaxP φ o.1)).flatten)).map
            (fun p => embeddingBagSum M.output_dim M.values p.1 p.2)).length,
          M.output_dim],
      dropoutL M.value_dropout training rV
        (((chunks (M.heads * M.knn) (s.2.map (fun o => o.2)).flatten).zip
          (chunks (M.heads * M.knn) (s.2.map (fun o => softmaxP φ o.1)).flatten)).map
            (fun p => embeddingBagSum M.output_dim M.values p.1 p.2)).flatten))

/-- Shape well-formedness of a constructed module, as established by
`__init__`: the constructor's size preconditions, a key tensor of shape
`[heads, 2, n_keys, ·]`, value rows of the output dimension, and projection
parameters of size `heads * k_dim`. -/
def WF (M : Memory) : Prop :=
  2 ≤ M.k_dim ∧ M.k_dim % 2 = 0 ∧ 1 ≤ M.heads ∧ 1 ≤ M.knn ∧ 1 ≤ M.input_dim ∧
  M.keys.length = M.heads ∧
  (∀ hd ∈ M.keys, hd.length = 2 ∧ ∀ hf ∈ hd, hf.length = M.n_keys) ∧
  (∀ row ∈ M.values, row.length = M.output_dim) ∧
  M.proj_w.length = M.heads * M.k_dim ∧
  M.proj_b.length = M.heads * M.k_dim ∧
  (∀ s ∈ M.bn.toList, s.1.length = M.heads * M.k_dim ∧
    s.2.length = M.heads * M.k_dim)

instance WF.dec (M : Memory) : Decidable (WF M) := by
  unfold WF
  infer_instance

/-- A minimal concrete module used for the concrete runs: `k_dim = 2`, one
head, `knn = 1`, `n_keys = 1`, scalar input and output, no batch norm. -/
def mex : Memory where
  input_dim := 1
  output_dim := 1
  k_dim := 2
  heads := 1
  knn := 1
  n_keys := 1
  input_dropout := 0
  query_dropout := 0
  value_dropout := 0
  keys := [[[[1]], [[1]]]]
  values := [[1]]
  proj_w := [[1], [1]]
  proj_b := [0, 0]
  bn := none

/-- An invalid configuration (odd `k_dim = 3`) used in the C8 witness. -/
def pBad : PMParams where
  sparse := false
  k_dim := 3
  heads := 1
  knn := 1
  n_keys := 1
  query_batchnorm := false
  input_dropout := 0
  query_dropout := 0
  value_dropout := 0

/-- A well-shaped module with the invalid setting `knn = 2 > n_keys = 1`,
used in the C8 witness. -/
def mexBad : Memory where
  input_dim := 1
  output_dim := 1
  k_dim := 2
  heads := 1
  knn := 2
  n_keys := 1
  input_dropout := 0
  query_dropout := 0
  value_dropout := 0
  keys := [[[[1]], [[1]]]]
  values := [[1]]
  proj_w := [[1], [1]]
  proj_b := [0, 0]
  bn := none

theorem enumScores_map_fst (xs : List ℚ) : (enumScores xs).map Prod.fst = xs := by
  unfold enumScores
  rw [List.map_map]
  exact List.enum_map_snd xs

theorem enumScores_map_snd (xs : List ℚ) :
    (enumScores xs).map Prod.snd = List.range xs.length := by
  unfold enumScores
  rw [List.map_map]
  exact List.enum_map_fst xs

theorem enumScores_length (xs : List ℚ) : (enumScores xs).length = xs.length := by
  simp [enumScores]

theorem topkList_length (k : ℕ) (xs : List ℚ) :
    (topkList k xs).length = min k xs.length := by
  unfold topkList
  rw [List.length_take, (List.perm_insertionSort pkLe _).length_eq, enumScores_length]

theorem sortPairs_map_fst_sorted (l : List (ℚ × ℕ)) :
    ((List.insertionSort pkLe l).map Prod.fst).Sorted (· ≥ ·) := by
  have h : (List.insertionSort pkLe l).Sorted pkLe := List.sorted_insertionSort pkLe l
  rw [List.Sorted, List.pairwise_map]
  refine h.imp ?_
  intro a b hab
  rcases hab with h' | ⟨he, _⟩
  · exact le_of_lt h'
  · exact le_of_eq he.symm

theorem topkList_map_fst_sorted (k : ℕ) (xs : List ℚ) :
    ((topkList k xs).map Prod.fst).Sorted (· ≥ ·) := by
  unfold topkList
  rw [List.map_take]
  exact (sortPairs_map_fst_sorted (enumScores xs)).sublist
    ((List.take_sublist _ _))

theorem topkList_map_fst (k : ℕ) (xs : List ℚ) :
    (topkList k xs).map Prod.fst = (List.insertionSort (· ≥ ·) xs).take k := by
  unfold topkList
  rw [List.map_take]
  congr 1
  refine List.eq_of_perm_of_sorted ?_ (sortPairs_map_fst_sorted (enumScores xs))
    (List.sorted_insertionSort _ xs)
  refine ((List.perm_insertionSort pkLe _).map _).trans ?_
  rw [enumScores_map_fst]
  exact (List.perm_insertionSort _ xs).symm

theorem mem_enumScores {xs : List ℚ} {p : ℚ × ℕ} (hp : p ∈ enumScores xs) :
    p.2 < xs.length ∧ xs.getD p.2 0 = p.1 := by
  unfold enumScores at hp
  rcases List.mem_map.mp hp with ⟨q, hq, rfl⟩
  obtain ⟨i, a⟩ := q
  obtain ⟨hlt, hget⟩ := List.mem_enum hq
  refine ⟨hlt, ?_⟩
  rw [List.getD_eq_getElem _ _ hlt]
  exact hget.symm

theorem topkList_mem {k : ℕ} {xs : List ℚ} {p : ℚ × ℕ} (hp : p ∈ topkList k xs) :
    p.2 < xs.length ∧ xs.getD p.2 0 = p.1 := by
  have h1 : p ∈ List.insertionSort pkLe (enumScores xs) :=
    List.take_subset _ _ hp
  exact mem_enumScores ((List.perm_insertionSort pkLe _).subset h1)

theorem topkList_snd_nodup (k : ℕ) (xs : List ℚ) :
    ((topkList k xs).map Prod.snd).Nodup := by
  have h0 : ((enumScores xs).map Prod.snd).Nodup := by
    rw [enumScores_map_snd]
    exact List.nodup_range _
  have h1 : ((List.insertionSort pkLe (enumScores xs)).map Prod.snd).Nodup :=
    (((List.perm_insertionSort pkLe (enumScores xs)).map Prod.snd).nodup_iff).mpr h0
  unfold topkList
  rw [List.map_take]
  exact h1.sublist (List.take_sublist _ _)

theorem topk_eq_some {k : ℕ} {xs : List ℚ} (h : k ≤ xs.length) :
    topk k xs = some (topkList k xs) := by
  unfold topk
  rw [if_pos h]

theorem topk_eq_none {k : ℕ} {xs : List ℚ} (h : xs.length < k) :
    topk k xs = none := by
  unfold topk
  rw [if_neg (by omega)]

/-! ### Lemmas about row-major flattening of the cartesian product -/

theorem bind_map_length {α β γ : Type} (f : α → β → γ) (a : List α) (b : List β) :
    (a.flatMap fun x => b.map (f x)).length = a.length * b.length := by
  induction a with
  | nil => simp
  | cons x a ih =>
    simp only [List.flatMap_cons, List.length_append, List.length_map, ih,
      List.length_cons]
    ring

theorem bind_map_getD {α β γ : Type} (f : α → β → γ) (d : γ) (da : α) (db : β)
    (a : List α) (b : List β) :
    ∀ i j, i < a.length → j < b.length →
      (a.flatMap fun x => b.map (f x)).getD (i * b.length + j) d =
        f (a.getD i da) (b.getD j db) := by
  induction a with
  | nil => intro i j hi _; exact absurd hi (by simp)
  | cons x a ih =>
    intro i j hi hj
    rcases i with _ | i
    · rw [List.flatMap_cons, Nat.zero_mul, Nat.zero_add,
        List.getD_append _ _ _ _ (by simpa using hj),
        List.getD_eq_getElem _ _ (by simpa using hj), List.getElem_map]
      rw [List.getD_eq_getElem _ _ hj]
      rfl
    · have hb : b.length ≤ (i + 1) * b.length + j := by
        calc b.length ≤ (i + 1) * b.length := Nat.le_mul_of_pos_left _ (Nat.succ_pos i)
          _ ≤ (i + 1) * b.length + j := Nat.le_add_right _ _
      rw [List.flatMap_cons, List.getD_append_right _ _ _ _ (by simpa using hb)]
      have harith : (i + 1) * b.length + j - (b.map (f x)).length =
          i * b.length + j := by
        simp only [List.length_map]
        rw [Nat.succ_mul]
        omega
      rw [harith]
      exact ih i j (by simpa using hi) hj

theorem allScores_length (t1 t2 : List (ℚ × ℕ)) :
    (allScores t1 t2).length = t1.length * t2.length := by
  unfold allScores
  rw [bind_map_length]
  simp

theorem allIndices_length (n_keys : ℕ) (t1 t2 : List (ℚ × ℕ)) :
    (allIndices n_keys t1 t2).length = t1.length * t2.length := by
  unfold allIndices
  rw [bind_map_length]
  simp

theorem allScores_getD (t1 t2 : List (ℚ × ℕ)) {i j : ℕ}
    (hi : i < t1.length) (hj : j < t2.length) :
    (allScores t1 t2).getD (i * t2.length + j) 0 =
      (t1.map Prod.fst).getD i 0 + (t2.map Prod.fst).getD j 0 := by
  unfold allScores
  have h := bind_map_getD (fun a b => a + b) 0 0 0 (t1.map Prod.fst)
    (t2.map Prod.fst) i j (by simpa using hi) (by simpa using hj)
  simpa using h

theorem allIndices_getD (n_keys : ℕ) (t1 t2 : List (ℚ × ℕ)) {i j : ℕ}
    (hi : i < t1.length) (hj : j < t2.length) :
    (allIndices n_keys t1 t2).getD (i * t2.length + j) 0 =
      (t1.map Prod.snd).getD i 0 * n_keys + (t2.map Prod.snd).getD j 0 := by
  unfold allIndices
  have h := bind_map_getD (fun a b => a * n_keys + b) 0 0 0 (t1.map Prod.snd)
    (t2.map Prod.snd) i j (by simpa using hi) (by simpa using hj)
  simpa using h

/-- Successful evaluation of `_get_indices`: with a well-sized query and
`knn` not exceeding either sub-key count, the selector returns the top-`knn`
cartesian candidates. -/
theorem get_indices_row_eq (knn k_dim : ℕ) (subkeys : List (List (List ℚ)))
    (q : List ℚ) (hq : q.length = k_dim)
    (h1 : knn ≤ (scores1 k_dim subkeys q).length)
    (h2 : knn ≤ (scores2 k_dim subkeys q).length) :
    get_indices_row knn k_dim subkeys q =
      some ((bestPairs knn k_dim subkeys q).map Prod.fst,
        (bestPairs knn k_dim subkeys q).map
          (fun p => (allIndices (subkeys.getD 0 []).length
            (top1 knn k_dim subkeys q) (top2 knn k_dim subkeys q)).getD p.2 0)) := by
  have hall : knn ≤ (allScores (top1 knn k_dim subkeys q)
      (top2 knn k_dim subkeys q)).length := by
    rw [allScores_length]
    unfold top1 top2
    rw [topkList_length, topkList_length, Nat.min_eq_left h1, Nat.min_eq_left h2]
    rcases Nat.eq_zero_or_pos knn with h | h
    · omega
    · exact Nat.le_mul_of_pos_left _ h
  unfold top1 top2 at hall
  unfold get_indices_row bestPairs top1 top2
  rw [if_pos hq, topk_eq_some h1, topk_eq_some h2, Option.some_bind,
    Option.some_bind, topk_eq_some hall, Option.map_some']

theorem get_indices_row_lengths {knn k_dim : ℕ} {subkeys : List (List (List ℚ))}
    {q : List ℚ} {S : List ℚ} {I : List ℕ}
    (h : get_indices_row knn k_dim subkeys q = some (S, I)) :
    S.length = knn ∧ I.length = knn := by
  unfold get_indices_row at h
  split at h
  · rw [Option.bind_eq_some] at h
    obtain ⟨t1, ht1, h⟩ := h
    rw [Option.bind_eq_some] at h
    obtain ⟨t2, ht2, h⟩ := h
    rw [Option.map_eq_some'] at h
    obtain ⟨best, hbest, h⟩ := h
    unfold topk at hbest
    split at hbest
    · obtain rfl : best = topkList knn (allScores t1 t2) :=
        (Option.some.inj hbest).symm
      obtain ⟨hS, hI⟩ := Prod.mk.inj h
      constructor
      · rw [← hS, List.length_map, topkList_length]
        omega
      · rw [← hI, List.length_map, topkList_length]
        omega
    · exact absurd hbest (by simp)
  · exact absurd h (by simp)

theorem le_sq (n : ℕ) : n ≤ n * n := by
  rcases Nat.eq_zero_or_pos n with h | h
  · omega
  · exact Nat.le_mul_of_pos_left _ h

theorem topkList_snd_mem_lt {k : ℕ} {xs : List ℚ} {i : ℕ}
    (h : i ∈ (topkList k xs).map Prod.snd) : i < xs.length := by
  rcases List.mem_map.mp h with ⟨p, hp, rfl⟩
  exact (topkList_mem hp).1

theorem map_getD_lt {α β : Type} (f : α → β) (l : List α) (d : β) (da : α)
    {i : ℕ} (h : i < l.length) :
    (l.map f).getD i d = f (l.getD i da) := by
  rw [List.getD_eq_getElem _ _ (by simpa using h), List.getElem_map,
    List.getD_eq_getElem _ _ h]

theorem nodup_getD_ne {α : Type} {l : List α} (hl : l.Nodup) {i j : ℕ} (d : α)
    (hi : i < l.length) (hj : j < l.length) (hij : i ≠ j) :
    l.getD i d ≠ l.getD j d := by
  rw [List.getD_eq_getElem _ _ hi, List.getD_eq_getElem _ _ hj]
  intro he
  exact hij ((hl.getElem_inj_iff).mp he)

theorem top1_length {knn k_dim : ℕ} {subkeys : List (List (List ℚ))}
    {q : List ℚ} (h1 : knn ≤ (scores1 k_dim subkeys q).length) :
    (top1 knn k_dim subkeys q).length = knn := by
  unfold top1
  rw [topkList_length]
  omega

theorem top2_length {knn k_dim : ℕ} {subkeys : List (List (List ℚ))}
    {q : List ℚ} (h2 : knn ≤ (scores2 k_dim subkeys q).length) :
    (top2 knn k_dim subkeys q).length = knn := by
  unfold top2
  rw [topkList_length]
  omega

theorem bestPairs_length {knn k_dim : ℕ} {subkeys : List (List (List ℚ))}
    {q : List ℚ} (h1 : knn ≤ (scores1 k_dim subkeys q).length)
    (h2 : knn ≤ (scores2 k_dim subkeys q).length) :
    (bestPairs knn k_dim subkeys q).length = knn := by
  unfold bestPairs
  rw [topkList_length, allScores_length, top1_length h1, top2_length h2]
  have := le_sq knn
  omega

/-- **C1.**  For every head, batch element and query: the Product-Key Selector
returns `scores` sorted descending, equal to the exact top-`knn` of the
`knn × knn` pairwise sums `scores1[i] + scores2[j]` over the per-half
top-`knn` candidates, and every returned combined index is
`indices1[i] * n_keys + indices2[j]` for the pair `(i, j)` that produced the
corresponding score. -/
theorem get_indices_scores_exact_topk
    (knn k_dim : ℕ) (subkeys : List (List (List ℚ))) (q : List ℚ)
    (S : List ℚ) (I : List ℕ)
    (hq : q.length = k_dim)
    (h1 : knn ≤ (scores1 k_dim subkeys q).length)
    (h2 : knn ≤ (scores2 k_dim subkeys q).length)
    (h : get_indices_row knn k_dim subkeys q = some (S, I)) :
    S.Sorted (· ≥ ·) ∧
    S = (List.insertionSort (· ≥ ·)
        (allScores (top1 knn k_dim subkeys q) (top2 knn k_dim subkeys q))).take knn ∧
    ∀ t, t < knn → ∃ i, ∃ j, i < knn ∧ j < knn ∧
      S.getD t 0 = ((top1 knn k_dim subkeys q).map Prod.fst).getD i 0 +
        ((top2 knn k_dim subkeys q).map Prod.fst).getD j 0 ∧
      I.getD t 0 = ((top1 knn k_dim subkeys q).map Prod.snd).getD i 0 *
        (subkeys.getD 0 []).length +
        ((top2 knn k_dim subkeys q).map Prod.snd).getD j 0 := by
  rw [get_indices_row_eq knn k_dim subkeys q hq h1 h2] at h
  obtain ⟨hS, hI⟩ := Prod.mk.inj (Option.some.inj h)
  subst hS
  subst hI
  have hT1 := top1_length h1
  have hT2 := top2_length h2
  have hAS : (allScores (top1 knn k_dim subkeys q) (top2 knn k_dim subkeys q)).length
      = knn * knn := by
    rw [allScores_length, hT1, hT2]
  have hB := bestPairs_length h1 h2
  refine ⟨topkList_map_fst_sorted _ _, topkList_map_fst _ _, ?_⟩
  intro t ht
  have htB : t < (bestPairs knn k_dim subkeys q).length := by omega
  have hknn : 0 < knn := by omega
  set B := bestPairs knn k_dim subkeys q with hBdef
  have hpB : B[t] ∈ B := List.getElem_mem htB
  have hmem : B[t].2 < (allScores (top1 knn k_dim subkeys q)
      (top2 knn k_dim subkeys q)).length ∧
      (allScores (top1 knn k_dim subkeys q) (top2 knn k_dim subkeys q)).getD B[t].2 0
        = B[t].1 := by
    unfold bestPairs at hBdef
    exact topkList_mem (show B[t] ∈ topkList knn _ by rw [← hBdef]; exact hpB)
  obtain ⟨hp2, hval⟩ := hmem
  rw [hAS] at hp2
  refine ⟨B[t].2 / knn, B[t].2 % knn, ?_, Nat.mod_lt _ hknn, ?_, ?_⟩
  · exact (Nat.div_lt_iff_lt_mul hknn).mpr hp2
  · have hdm : B[t].2 / knn * (top2 knn k_dim subkeys q).length + B[t].2 % knn
        = B[t].2 := by
      rw [hT2, Nat.mul_comm]
      exact Nat.div_add_mod _ _
    have hgd := allScores_getD (top1 knn k_dim subkeys q) (top2 knn k_dim subkeys q)
      (i := B[t].2 / knn) (j := B[t].2 % knn)
      (by rw [hT1]; exact (Nat.div_lt_iff_lt_mul hknn).mpr hp2)
      (by rw [hT2]; exact Nat.mod_lt _ hknn)
    rw [hdm] at hgd
    rw [map_getD_lt Prod.fst B 0 (0, 0) htB, List.getD_eq_getElem _ _ htB, ← hval]
    exact hgd
  · have hdm : B[t].2 / knn * (top2 knn k_dim subkeys q).length + B[t].2 % knn
        = B[t].2 := by
      rw [hT2, Nat.mul_comm]
      exact Nat.div_add_mod _ _
    have hgd := allIndices_getD ((subkeys.getD 0 []).length)
      (top1 knn k_dim subkeys q) (top2 knn k_dim subkeys q)
      (i := B[t].2 / knn) (j := B[t].2 % knn)
      (by rw [hT1]; exact (Nat.div_lt_iff_lt_mul hknn).mpr hp2)
      (by rw [hT2]; exact Nat.mod_lt _ hknn)
    rw [hdm] at hgd
    rw [map_getD_lt _ B 0 (0, 0) htB, List.getD_eq_getElem _ _ htB]
    exact hgd

theorem scores1_length (k_dim : ℕ) (subkeys : List (List (List ℚ))) (q : List ℚ) :
    (scores1 k_dim subkeys q).length = (subkeys.getD 0 []).length := by
  simp [scores1]

theorem scores2_length (k_dim : ℕ) (subkeys : List (List (List ℚ))) (q : List ℚ) :
    (scores2 k_dim subkeys q).length = (subkeys.getD 1 []).length := by
  simp [scores2]

/-- **C5.**  Every returned combined index lies in `[0, n_keys^2)` and factors
as `(r / n_keys, r % n_keys)`, the pair of half-key indices that produced it. -/
theorem get_indices_index_range
    (knn k_dim n_keys : ℕ) (subkeys : List (List (List ℚ))) (q : List ℚ)
    (S : List ℚ) (I : List ℕ)
    (hq : q.length = k_dim)
    (hs0 : (subkeys.getD 0 []).length = n_keys)
    (hs1 : (subkeys.getD 1 []).length = n_keys)
    (hkn : knn ≤ n_keys)
    (h : get_indices_row knn k_dim subkeys q = some (S, I)) :
    ∀ r ∈ I, r < n_keys ^ 2 ∧
      ∃ i ∈ (top1 knn k_dim subkeys q).map Prod.snd,
      ∃ j ∈ (top2 knn k_dim subkeys q).map Prod.snd,
        r = i * n_keys + j ∧ r / n_keys = i ∧ r % n_keys = j := by
  have h1 : knn ≤ (scores1 k_dim subkeys q).length := by
    rw [scores1_length, hs0]; exact hkn
  have h2 : knn ≤ (scores2 k_dim subkeys q).length := by
    rw [scores2_length, hs1]; exact hkn
  rw [get_indices_row_eq knn k_dim subkeys q hq h1 h2] at h
  obtain ⟨hS, hI⟩ := Prod.mk.inj (Option.some.inj h)
  subst hS
  subst hI
  intro r hr
  rcases List.mem_map.mp hr with ⟨p, hp, rfl⟩
  rw [hs0]
  have hpmem : p ∈ topkList knn (allScores (top1 knn k_dim subkeys q)
      (top2 knn k_dim subkeys q)) := by
    unfold bestPairs at hp
    exact hp
  obtain ⟨hp2, _⟩ := topkList_mem hpmem
  rw [allScores_length, top1_length h1, top2_length h2] at hp2
  have hknn : 0 < knn := by
    rcases Nat.eq_zero_or_pos knn with h0 | h0
    · rw [h0] at hp2
      omega
    · exact h0
  have hi : p.2 / knn < knn := (Nat.div_lt_iff_lt_mul hknn).mpr hp2
  have hj : p.2 % knn < knn := Nat.mod_lt _ hknn
  have hdm : p.2 / knn * (top2 knn k_dim subkeys q).length + p.2 % knn = p.2 := by
    rw [top2_length h2, Nat.mul_comm]
    exact Nat.div_add_mod _ _
  have hgd := allIndices_getD ((subkeys.getD 0 []).length)
    (top1 knn k_dim subkeys q) (top2 knn k_dim subkeys q)
    (i := p.2 / knn) (j := p.2 % knn)
    (by rw [top1_length h1]; exact hi) (by rw [top2_length h2]; exact hj)
  rw [hdm, hs0] at hgd
  have hlen1 : p.2 / knn < ((top1 knn k_dim subkeys q).map Prod.snd).length := by
    rw [List.length_map, top1_length h1]; exact hi
  have hlen2 : p.2 % knn < ((top2 knn k_dim subkeys q).map Prod.snd).length := by
    rw [List.length_map, top2_length h2]; exact hj
  have hi1mem : ((top1 knn k_dim subkeys q).map Prod.snd).getD (p.2 / knn) 0 ∈
      (top1 knn k_dim subkeys q).map Prod.snd := by
    rw [List.getD_eq_getElem _ _ hlen1]
    exact List.getElem_mem hlen1
  have hi2mem : ((top2 knn k_dim subkeys q).map Prod.snd).getD (p.2 % knn) 0 ∈
      (top2 knn k_dim subkeys q).map Prod.snd := by
    rw [List.getD_eq_getElem _ _ hlen2]
    exact List.getElem_mem hlen2
  have hi1lt : ((top1 knn k_dim subkeys q).map Prod.snd).getD (p.2 / knn) 0 < n_keys := by
    have := @topkList_snd_mem_lt knn (scores1 k_dim subkeys q) _ hi1mem
    rwa [scores1_length, hs0] at this
  have hi2lt : ((top2 knn k_dim subkeys q).map Prod.snd).getD (p.2 % knn) 0 < n_keys := by
    have := @topkList_snd_mem_lt knn (scores2 k_dim subkeys q) _ hi2mem
    rwa [scores2_length, hs1] at this
  have hpos : 0 < n_keys := by omega
  rw [hgd]
  refine ⟨?_, _, hi1mem, _, hi2mem, rfl, ?_, ?_⟩
  · have : (((top1 knn k_dim subkeys q).map Prod.snd).getD (p.2 / knn) 0 + 1) * n_keys
        ≤ n_keys * n_keys := Nat.mul_le_mul_right _ (by omega)
    have h2' : ((top1 knn k_dim subkeys q).map Prod.snd).getD (p.2 / knn) 0 * n_keys
        + ((top2 knn k_dim subkeys q).map Prod.snd).getD (p.2 % knn) 0
        < (((top1 knn k_dim subkeys q).map Prod.snd).getD (p.2 / knn) 0 + 1) * n_keys := by
      rw [Nat.succ_mul]
      omega
    rw [Nat.pow_two]
    omega
  · rw [Nat.mul_comm, Nat.mul_add_div hpos, Nat.div_eq_of_lt hi2lt, Nat.add_zero]
  · rw [Nat.mul_comm, Nat.mul_add_mod, Nat.mod_eq_of_lt hi2lt]

/-- **C10.**  Within a single head the `knn` returned combined indices are
pairwise distinct: the per-half top-`knn` position lists are duplicate-free,
the pairing `(i, j) ↦ i * n_keys + j` is injective on `[0, n_keys)²`, and the
gathered combined indices form a duplicate-free list. -/
theorem get_indices_nodup
    (knn k_dim n_keys : ℕ) (subkeys : List (List (List ℚ))) (q : List ℚ)
    (S : List ℚ) (I : List ℕ)
    (hq : q.length = k_dim)
    (hs0 : (subkeys.getD 0 []).length = n_keys)
    (hs1 : (subkeys.getD 1 []).length = n_keys)
    (hkn : knn ≤ n_keys)
    (h : get_indices_row knn k_dim subkeys q = some (S, I)) :
    ((top1 knn k_dim subkeys q).map Prod.snd).Nodup ∧
    ((top2 knn k_dim subkeys q).map Prod.snd).Nodup ∧
    (∀ a b a' b' : ℕ, a < n_keys → b < n_keys → a' < n_keys → b' < n_keys →
      a * n_keys + b = a' * n_keys + b' → a = a' ∧ b = b') ∧
    I.Nodup := by
  have hpairInj : ∀ a b a' b' : ℕ, a < n_keys → b < n_keys → a' < n_keys →
      b' < n_keys → a * n_keys + b = a' * n_keys + b' → a = a' ∧ b = b' := by
    intro a b a' b' ha hb ha' hb' he
    have hpos : 0 < n_keys := by omega
    have hbb : b = b' := by
      have hmod := congrArg (· % n_keys) he
      simp only at hmod
      rw [Nat.mul_comm a n_keys, Nat.mul_comm a' n_keys] at hmod
      simp only [Nat.mul_add_mod] at hmod
      rwa [Nat.mod_eq_of_lt hb, Nat.mod_eq_of_lt hb'] at hmod
    subst hbb
    have haa : a * n_keys = a' * n_keys := by omega
    exact ⟨Nat.eq_of_mul_eq_mul_right hpos haa, rfl⟩
  have h1 : knn ≤ (scores1 k_dim subkeys q).length := by
    rw [scores1_length, hs0]; exact hkn
  have h2 : knn ≤ (scores2 k_dim subkeys q).length := by
    rw [scores2_length, hs1]; exact hkn
  rw [get_indices_row_eq knn k_dim subkeys q hq h1 h2] at h
  obtain ⟨hS, hI⟩ := Prod.mk.inj (Option.some.inj h)
  subst hS
  subst hI
  refine ⟨topkList_snd_nodup _ _, topkList_snd_nodup _ _, hpairInj, ?_⟩
  have hT1lt : ∀ x ∈ (top1 knn k_dim subkeys q).map Prod.snd, x < n_keys := by
    intro x hx
    have := @topkList_snd_mem_lt knn (scores1 k_dim subkeys q) _ hx
    rwa [scores1_length, hs0] at this
  have hT2lt : ∀ x ∈ (top2 knn k_dim subkeys q).map Prod.snd, x < n_keys := by
    intro x hx
    have := @topkList_snd_mem_lt knn (scores2 k_dim subkeys q) _ hx
    rwa [scores2_length, hs1] at this
  have hAllNodup : (allIndices ((subkeys.getD 0 []).length)
      (top1 knn k_dim subkeys q) (top2 knn k_dim subkeys q)).Nodup := by
    rw [hs0]
    unfold allIndices
    rw [List.nodup_flatMap]
    constructor
    · intro x _
      refine (topkList_snd_nodup _ _).map ?_
      intro b1 b2 hb
      have hb' : x * n_keys + b1 = x * n_keys + b2 := hb
      omega
    · have hnd : ((top1 knn k_dim subkeys q).map Prod.snd).Nodup :=
        topkList_snd_nodup _ _
    -- wait, continue below
      refine hnd.imp_of_mem ?_
      intro a a' ha ha' hne
      intro z hz1 hz2
      rcases List.mem_map.mp hz1 with ⟨b, hb, rfl⟩
      rcases List.mem_map.mp hz2 with ⟨b', hb', he⟩
      exact hne (hpairInj a b a' b' (hT1lt a ha) (hT2lt b hb) (hT1lt a' ha')
        (hT2lt b' hb') he.symm).1
  have hBsnd : ((bestPairs knn k_dim subkeys q).map Prod.snd).Nodup := by
    unfold bestPairs
    exact topkList_snd_nodup _ _
  have hBpair : (bestPairs knn k_dim subkeys q).Pairwise (fun p p' => p.2 ≠ p'.2) :=
    (List.pairwise_map).mp hBsnd
  have hlenAI : (allIndices ((subkeys.getD 0 []).length)
      (top1 knn k_dim subkeys q) (top2 knn k_dim subkeys q)).length =
      (allScores (top1 knn k_dim subkeys q) (top2 knn k_dim subkeys q)).length := by
    rw [allIndices_length, allScores_length]
  refine (List.pairwise_map).mpr (hBpair.imp_of_mem ?_)
  intro p p' hp hp' hne
  have hm : p ∈ topkList knn (allScores (top1 knn k_dim subkeys q)
      (top2 knn k_dim subkeys q)) := by unfold bestPairs at hp; exact hp
  have hm' : p' ∈ topkList knn (allScores (top1 knn k_dim subkeys q)
      (top2 knn k_dim subkeys q)) := by unfold bestPairs at hp'; exact hp'
  have hlt : p.2 < (allIndices ((subkeys.getD 0 []).length)
      (top1 knn k_dim subkeys q) (top2 knn k_dim subkeys q)).length := by
    rw [hlenAI]; exact (topkList_mem hm).1
  have hlt' : p'.2 < (allIndices ((subkeys.getD 0 []).length)
      (top1 knn k_dim subkeys q) (top2 knn k_dim subkeys q)).length := by
    rw [hlenAI]; exact (topkList_mem hm').1
  exact nodup_getD_ne hAllNodup 0 hlt hlt' hne

/-- Witness for C1 at a concrete selector run (`knn = 2`, `n_keys = 2`,
`k_dim = 2`): scores `[13, 11]`, combined indices `[1, 3]`. -/
theorem get_indices_scores_exact_topk_witness :
    get_indices_row 2 2 [[[3], [1]], [[2], [5]]] [1, 2] = some ([13, 11], [1, 3]) ∧
    (([13, 11] : List ℚ).Sorted (· ≥ ·) ∧
      ([13, 11] : List ℚ) = (List.insertionSort (· ≥ ·)
          (allScores (top1 2 2 [[[3], [1]], [[2], [5]]] [1, 2])
            (top2 2 2 [[[3], [1]], [[2], [5]]] [1, 2]))).take 2 ∧
      ∀ t, t < 2 → ∃ i, ∃ j, i < 2 ∧ j < 2 ∧
        ([13, 11] : List ℚ).getD t 0 =
          ((top1 2 2 [[[3], [1]], [[2], [5]]] [1, 2]).map Prod.fst).getD i 0 +
          ((top2 2 2 [[[3], [1]], [[2], [5]]] [1, 2]).map Prod.fst).getD j 0 ∧
        ([1, 3] : List ℕ).getD t 0 =
          ((top1 2 2 [[[3], [1]], [[2], [5]]] [1, 2]).map Prod.snd).getD i 0 *
          (([[[3], [1]], [[2], [5]]] : List (List (List ℚ))).getD 0 []).length +
          ((top2 2 2 [[[3], [1]], [[2], [5]]] [1, 2]).map Prod.snd).getD j 0) := by
  have h : get_indices_row 2 2 [[[3], [1]], [[2], [5]]] [1, 2] =
      some ([13, 11], [1, 3]) := by
    norm_num [get_indices_row, topk, topkList, enumScores, scores1, scores2,
      allScores, allIndices, dot, pkLe, List.insertionSort, List.orderedInsert]
  exact ⟨h, get_indices_scores_exact_topk 2 2 [[[3], [1]], [[2], [5]]] [1, 2]
    [13, 11] [1, 3] rfl (by norm_num [scores1]) (by norm_num [scores2]) h⟩

/-- Witness for C5 at the same concrete selector run. -/
theorem get_indices_index_range_witness :
    get_indices_row 2 2 [[[3], [1]], [[2], [5]]] [1, 2] = some ([13, 11], [1, 3]) ∧
    (∀ r ∈ ([1, 3] : List ℕ), r < 2 ^ 2 ∧
      ∃ i ∈ (top1 2 2 [[[3], [1]], [[2], [5]]] [1, 2]).map Prod.snd,
      ∃ j ∈ (top2 2 2 [[[3], [1]], [[2], [5]]] [1, 2]).map Prod.snd,
        r = i * 2 + j ∧ r / 2 = i ∧ r % 2 = j) := by
  have h : get_indices_row 2 2 [[[3], [1]], [[2], [5]]] [1, 2] =
      some ([13, 11], [1, 3]) := by
    norm_num [get_indices_row, topk, topkList, enumScores, scores1, scores2,
      allScores, allIndices, dot, pkLe, List.insertionSort, List.orderedInsert]
  exact ⟨h, get_indices_index_range 2 2 2 [[[3], [1]], [[2], [5]]] [1, 2]
    [13, 11] [1, 3] rfl rfl rfl (by norm_num) h⟩

/-- Witness for C10 at the same concrete selector run. -/
theorem get_indices_nodup_witness :
    get_indices_row 2 2 [[[3], [1]], [[2], [5]]] [1, 2] = some ([13, 11], [1, 3]) ∧
    (((top1 2 2 [[[3], [1]], [[2], [5]]] [1, 2]).map Prod.snd).Nodup ∧
      ((top2 2 2 [[[3], [1]], [[2], [5]]] [1, 2]).map Prod.snd).Nodup ∧
      (∀ a b a' b' : ℕ, a < 2 → b < 2 → a' < 2 → b' < 2 →
        a * 2 + b = a' * 2 + b' → a = a' ∧ b = b') ∧
      ([1, 3] : List ℕ).Nodup) := by
  have h : get_indices_row 2 2 [[[3], [1]], [[2], [5]]] [1, 2] =
      some ([13, 11], [1, 3]) := by
    norm_num [get_indices_row, topk, topkList, enumScores, scores1, scores2,
      allScores, allIndices, dot, pkLe, List.insertionSort, List.orderedInsert]
  exact ⟨h, get_indices_nodup 2 2 2 [[[3], [1]], [[2], [5]]] [1, 2]
    [13, 11] [1, 3] rfl rfl rfl (by norm_num) h⟩

theorem chunks_nil {α : Type} (n : ℕ) : chunks n ([] : List α) = [] := by
  simp [chunks]

theorem chunks_cons_ne {α : Type} {n : ℕ} (hn : n ≠ 0) {l : List α} (hl : l ≠ []) :
    chunks n l = l.take n :: chunks n (l.drop n) := by
  match l with
  | [] => exact absurd rfl hl
  | x :: xs =>
    simp only [chunks]
    rw [if_neg hn]

theorem chunks_flatten_uniform {α : Type} {n : ℕ} (hn : 0 < n) :
    ∀ R : List (List α), (∀ r ∈ R, r.length = n) → chunks n R.flatten = R := by
  intro R
  induction R with
  | nil =>
    intro _
    rw [List.flatten_nil, chunks_nil]
  | cons r R ih =>
    intro h
    have hr : r.length = n := h r (List.mem_cons_self _ _)
    have hne : r ++ R.flatten ≠ [] := by
      intro h0
      have hre : r = [] := (List.append_eq_nil.mp h0).1
      rw [hre] at hr
      simp at hr
      omega
    rw [List.flatten_cons, chunks_cons_ne (by omega) hne]
    congr 1
    · exact List.take_left' hr
    · rw [List.drop_left' hr]
      exact ih (fun r' hr' => h r' (List.mem_cons_of_mem _ hr'))

theorem init_keys_flat_eq (heads n_keys half : ℕ) :
    init_keys_flat heads n_keys half =
      ((List.range heads).map (fun i =>
        [get_uniform_keys n_keys half (2 * i), get_uniform_keys n_keys half (2 * i + 1)])).flatten := by
  unfold init_keys_flat
  rw [List.flatMap_def]
  congr 1

theorem init_keys_eq (heads n_keys half : ℕ) :
    init_keys heads n_keys half =
      (List.range heads).map (fun i =>
        [get_uniform_keys n_keys half (2 * i), get_uniform_keys n_keys half (2 * i + 1)]) := by
  unfold init_keys
  rw [init_keys_flat_eq]
  refine chunks_flatten_uniform (by omega) _ ?_
  intro r hr
  rcases List.mem_map.mp hr with ⟨i, _, rfl⟩
  rfl

theorem get_uniform_keys_length (n_keys dim seed : ℕ) :
    (get_uniform_keys n_keys dim seed).length = n_keys := by
  simp [get_uniform_keys]

theorem get_uniform_keys_row_length (n_keys dim seed : ℕ) :
    ∀ v ∈ get_uniform_keys n_keys dim seed, v.length = dim := by
  intro v hv
  rcases List.mem_map.mp hv with ⟨i, _, rfl⟩
  simp

/-- **C6.**  At construction, the key tensor holds, at head `i` and half `j`,
exactly the Uniform Key Generator output for seed `2*i + j` and dimension
`k_dim / 2`, assembled into shape `[heads, 2, n_keys, k_dim / 2]`. -/
theorem init_keys_spec (heads n_keys k_dim : ℕ) (i j : ℕ)
    (hi : i < heads) (hj : j < 2) :
    ((init_keys heads n_keys (k_dim / 2)).getD i []).getD j [] =
      get_uniform_keys n_keys (k_dim / 2) (2 * i + j) ∧
    (init_keys heads n_keys (k_dim / 2)).length = heads ∧
    (∀ hd ∈ init_keys heads n_keys (k_dim / 2), hd.length = 2 ∧
      ∀ hf ∈ hd, hf.length = n_keys ∧ ∀ v ∈ hf, v.length = k_dim / 2) := by
  rw [init_keys_eq]
  refine ⟨?_, by simp, ?_⟩
  · have hlen : i < ((List.range heads).map (fun i =>
        [get_uniform_keys n_keys (k_dim / 2) (2 * i),
         get_uniform_keys n_keys (k_dim / 2) (2 * i + 1)])).length := by
      simpa using hi
    rw [List.getD_eq_getElem _ _ hlen, List.getElem_map, List.getElem_range]
    interval_cases j
    · rfl
    · rfl
  · intro hd hhd
    rcases List.mem_map.mp hhd with ⟨a, _, rfl⟩
    refine ⟨rfl, ?_⟩
    intro hf hhf
    have hcases : hf = get_uniform_keys n_keys (k_dim / 2) (2 * a) ∨
        hf = get_uniform_keys n_keys (k_dim / 2) (2 * a + 1) := by
      simpa using hhf
    rcases hcases with rfl | rfl
    · exact ⟨get_uniform_keys_length _ _ _, get_uniform_keys_row_length _ _ _⟩
    · exact ⟨get_uniform_keys_length _ _ _, get_uniform_keys_row_length _ _ _⟩

/-- Witness for C6: `heads = 1`, `n_keys = 1`, `k_dim = 2`, head `0`, half `1`. -/
theorem init_keys_spec_witness :
    0 < 1 ∧ 1 < 2 ∧
    (((init_keys 1 1 (2 / 2)).getD 0 []).getD 1 [] =
        get_uniform_keys 1 (2 / 2) (2 * 0 + 1) ∧
      (init_keys 1 1 (2 / 2)).length = 1 ∧
      (∀ hd ∈ init_keys 1 1 (2 / 2), hd.length = 2 ∧
        ∀ hf ∈ hd, hf.length = 1 ∧ ∀ v ∈ hf, v.length = 2 / 2)) :=
  ⟨Nat.one_pos, Nat.one_lt_two, init_keys_spec 1 1 2 0 1 Nat.one_pos Nat.one_lt_two⟩

theorem unitDraw_nonneg (seed k : ℕ) : 0 ≤ unitDraw seed k := by
  unfold unitDraw
  positivity

theorem unitDraw_lt_one (seed k : ℕ) : unitDraw seed k < 1 := by
  unfold unitDraw
  rw [div_lt_one (by norm_num)]
  have h : mix seed k < 4294967296 := Nat.mod_lt _ (by norm_num)
  exact_mod_cast h

theorem boundQ_pos (dim : ℕ) : 0 < boundQ dim := by
  unfold boundQ
  positivity

theorem boundQ_le_real {dim : ℕ} (hd : 1 ≤ dim) :
    (boundQ dim : ℝ) ≤ 1 / Real.sqrt dim := by
  have hdim : (0:ℝ) < dim := by exact_mod_cast hd
  have hsd : 0 < Real.sqrt dim := Real.sqrt_pos.mpr hdim
  set s : ℕ := Nat.sqrt (dim * 1000000000000) with hs
  have h1 : (dim * 1000000000000 : ℝ) < ((s : ℝ) + 1) ^ 2 := by
    have hnat : dim * 1000000000000 < (s + 1) ^ 2 := by
      have hlt := Nat.lt_succ_sqrt' (dim * 1000000000000)
      simpa [Nat.succ_eq_add_one, hs] using hlt
    exact_mod_cast hnat
  have h2 : Real.sqrt (dim * 1000000000000) < (s : ℝ) + 1 := by
    have hnn : (0:ℝ) ≤ (s : ℝ) + 1 := by positivity
    calc Real.sqrt (dim * 1000000000000)
        < Real.sqrt (((s : ℝ) + 1) ^ 2) := Real.sqrt_lt_sqrt (by positivity) h1
      _ = (s : ℝ) + 1 := Real.sqrt_sq hnn
  have hkey : Real.sqrt dim * 1000000 < (s : ℝ) + 1 := by
    have hmul : Real.sqrt dim * 1000000 = Real.sqrt (dim * 1000000000000) := by
      rw [show ((dim : ℝ) * 1000000000000) = (dim : ℝ) * 1000000 ^ 2 by norm_num,
        Real.sqrt_mul (le_of_lt hdim), Real.sqrt_sq (by norm_num)]
    rw [hmul]
    exact h2
  unfold boundQ
  push_cast
  rw [div_le_div_iff₀ (by positivity) hsd]
  nlinarith [hkey]

/-- **C7.**  The Uniform Key Generator deterministically produces `count`
vectors of dimension `dim` with every component inside
`[-1/sqrt dim, 1/sqrt dim]`; two calls with the same arguments agree. -/
theorem get_uniform_keys_spec (count dim seed : ℕ)
    (_hc : 1 ≤ count) (hd : 1 ≤ dim) :
    (get_uniform_keys count dim seed).length = count ∧
    (∀ v ∈ get_uniform_keys count dim seed, v.length = dim) ∧
    (∀ v ∈ get_uniform_keys count dim seed, ∀ x ∈ v,
      -(1 / Real.sqrt dim) ≤ (x : ℝ) ∧ (x : ℝ) ≤ 1 / Real.sqrt dim) ∧
    get_uniform_keys count dim seed = get_uniform_keys count dim seed := by
  refine ⟨get_uniform_keys_length _ _ _, get_uniform_keys_row_length _ _ _, ?_, rfl⟩
  intro v hv x hx
  rcases List.mem_map.mp hv with ⟨i, _, rfl⟩
  rcases List.mem_map.mp hx with ⟨j, _, rfl⟩
  have hb := boundQ_pos dim
  have hu0 := unitDraw_nonneg seed (i * dim + j)
  have hu1 := unitDraw_lt_one seed (i * dim + j)
  have hlo : -(boundQ dim) ≤ boundQ dim * (2 * unitDraw seed (i * dim + j) - 1) := by
    nlinarith
  have hhi : boundQ dim * (2 * unitDraw seed (i * dim + j) - 1) ≤ boundQ dim := by
    nlinarith
  have hble := boundQ_le_real hd
  constructor
  · have hlo' : (-(boundQ dim) : ℝ) ≤
        ((boundQ dim * (2 * unitDraw seed (i * dim + j) - 1) : ℚ) : ℝ) := by
      exact_mod_cast hlo
    have : -(1 / Real.sqrt dim) ≤ (-(boundQ dim) : ℝ) := by
      simpa using neg_le_neg hble
    linarith
  · have hhi' : ((boundQ dim * (2 * unitDraw seed (i * dim + j) - 1) : ℚ) : ℝ) ≤
        ((boundQ dim : ℚ) : ℝ) := by
      exact_mod_cast hhi
    linarith

/-- **C9.**  In evaluation mode all three dropout stages are the identity:
`read` with arbitrary dropout rates returns exactly the output of the same
module with all rates set to 0, for every input and every random stream. -/
theorem forward_eval_dropout_noop (M : Memory) (p1 p2 p3 : ℚ)
    (rIn rQ rV : ℕ → ℚ) (φ : ℚ → ℚ) (shape : List ℕ) (data : List ℚ) :
    forward { M with
        input_dropout := p1
        query_dropout := p2
        value_dropout := p3 } false rIn rQ rV φ shape data =
      forward { M with
        input_dropout := 0
        query_dropout := 0
        value_dropout := 0 } false rIn rQ rV φ shape data := rfl

theorem dropoutL_length (p : ℚ) (training : Bool) (rand : ℕ → ℚ)
    (xs : List ℚ) : (dropoutL p training rand xs).length = xs.length := by
  unfold dropoutL
  split <;> simp

theorem linearRow_length (W : List (List ℚ)) (b : List ℚ) (x : List ℚ) :
    (linearRow W b x).length = min W.length b.length := by
  simp [linearRow]

theorem bnEval_length (scale shift x : List ℚ) :
    (bnEval scale shift x).length =
      min x.length (min scale.length shift.length) := by
  simp [bnEval]

theorem query_proj_length {M : Memory} (hW : WF M) (x : List ℚ) :
    (query_proj M x).length = M.heads * M.k_dim := by
  obtain ⟨-, -, -, -, -, -, -, -, hw, hb, hbn⟩ := hW
  unfold query_proj
  cases hM : M.bn with
  | none => rw [linearRow_length, hw, hb, Nat.min_self]
  | some s =>
    have hs : s.1.length = M.heads * M.k_dim ∧
        s.2.length = M.heads * M.k_dim := by
      refine hbn s ?_
      rw [hM]
      simp
    rw [bnEval_length, linearRow_length, hw, hb, hs.1, hs.2]
    omega

theorem softmaxP_length (φ : ℚ → ℚ) (xs : List ℚ) :
    (softmaxP φ xs).length = xs.length := by
  simp [softmaxP]

theorem flatten_length_uniform {α : Type} {n : ℕ} :
    ∀ L : List (List α), (∀ r ∈ L, r.length = n) →
      L.flatten.length = L.length * n := by
  intro L
  induction L with
  | nil => simp
  | cons r R ih =>
    intro h
    rw [List.flatten_cons, List.length_append,
      ih (fun r' h' => h r' (List.mem_cons_of_mem _ h')),
      h r (List.mem_cons_self _ _), List.length_cons]
    ring

theorem chunks_of_length_mul {α : Type} {n : ℕ} (hn : 0 < n) :
    ∀ (B : ℕ) (l : List α), l.length = B * n →
      (chunks n l).length = B ∧ (∀ r ∈ chunks n l, r.length = n) ∧
        (chunks n l).flatten = l := by
  intro B
  induction B with
  | zero =>
    intro l hl
    have h0 : l = [] := List.eq_nil_of_length_eq_zero (by omega)
    subst h0
    rw [chunks_nil]
    exact ⟨rfl, by intro r hr; exact absurd hr (List.not_mem_nil r), rfl⟩
  | succ B ih =>
    intro l hl
    have hlen : l.length = B * n + n := by rw [hl]; ring
    have hne : l ≠ [] := by
      intro h0
      rw [h0] at hlen
      simp at hlen
      omega
    rw [chunks_cons_ne (by omega) hne]
    have htake : (l.take n).length = n := by
      rw [List.length_take]
      omega
    have hdrop : (l.drop n).length = B * n := by
      rw [List.length_drop]
      omega
    obtain ⟨ih1, ih2, ih3⟩ := ih (l.drop n) hdrop
    refine ⟨by rw [List.length_cons, ih1], ?_, ?_⟩
    · intro r hr
      rcases List.mem_cons.mp hr with rfl | hr'
      · exact htake
      · exact ih2 r hr'
    · rw [List.flatten_cons, ih3, List.take_append_drop]

theorem np_prod_ne_nil {l : List ℕ} (h : l ≠ []) : np_prod l = .int l.prod := by
  match l with
  | [] => exact absurd rfl h
  | x :: xs => rfl

theorem mapM_some_of_forall {α β : Type} (f : α → Option β) :
    ∀ l : List α, (∀ x ∈ l, (f x).isSome) →
      ∃ ys, l.mapM f = some ys ∧
        List.Forall₂ (fun x y => f x = some y) l ys := by
  intro l
  induction l with
  | nil => exact fun _ => ⟨[], rfl, List.Forall₂.nil⟩
  | cons x l ih =>
    intro h
    obtain ⟨y, hy⟩ := Option.isSome_iff_exists.mp (h x (List.mem_cons_self _ _))
    obtain ⟨ys, hys, hfa⟩ := ih (fun a ha => h a (List.mem_cons_of_mem _ ha))
    refine ⟨y :: ys, ?_, List.Forall₂.cons hy hfa⟩
    rw [List.mapM_cons, hy, hys]
    rfl

theorem mapM_none_of_mem {α β : Type} (f : α → Option β) :
    ∀ l : List α, (∃ x ∈ l, f x = none) → l.mapM f = none := by
  intro l
  induction l with
  | nil =>
    rintro ⟨x, hx, -⟩
    exact absurd hx (List.not_mem_nil x)
  | cons a l ih =>
    rintro ⟨x, hx, hfx⟩
    rw [List.mapM_cons]
    rcases List.mem_cons.mp hx with rfl | hx'
    · rw [hfx]
      rfl
    · cases hfa : f a with
      | none => rfl
      | some v =>
        rw [ih ⟨x, hx', hfx⟩]
        rfl

theorem mapM_eq_some_forall₂ {α β : Type} (f : α → Option β) :
    ∀ (l : List α) (ys : List β), l.mapM f = some ys →
      List.Forall₂ (fun x y => f x = some y) l ys := by
  intro l
  induction l with
  | nil =>
    intro ys h
    have h0 : ys = [] := by
      have : (some [] : Option (List β)) = some ys := h
      exact (Option.some.inj this).symm
    subst h0
    exact List.Forall₂.nil
  | cons a l ih =>
    intro ys h
    rw [List.mapM_cons] at h
    cases hfa : f a with
    | none =>
      rw [hfa] at h
      exact absurd h (by simp)
    | some b =>
      rw [hfa] at h
      cases hml : l.mapM f with
      | none =>
        rw [hml] at h
        exact absurd h (by simp)
      | some ys' =>
        rw [hml] at h
        have hys : ys = b :: ys' := by
          have : (some (b :: ys') : Option (List β)) = some ys := h
          exact (Option.some.inj this).symm
        subst hys
        exact List.Forall₂.cons hfa (ih ys' hml)

theorem forall₂_mem_right {α β : Type} {R : α → β → Prop} :
    ∀ {l₁ : List α} {l₂ : List β}, List.Forall₂ R l₁ l₂ →
      ∀ y ∈ l₂, ∃ x ∈ l₁, R x y := by
  intro l₁ l₂ h
  induction h with
  | nil =>
    intro y hy
    exact absurd hy (List.not_mem_nil y)
  | cons hr _ ih =>
    intro y hy
    rcases List.mem_cons.mp hy with rfl | hy'
    · exact ⟨_, List.mem_cons_self _ _, hr⟩
    · obtain ⟨x, hx, hxy⟩ := ih y hy'
      exact ⟨x, List.mem_cons_of_mem _ hx, hxy⟩

/-- Witness for C7 at `count = 1`, `dim = 1`, `seed = 0`. -/
theorem get_uniform_keys_spec_witness :
    1 ≤ 1 ∧
    ((get_uniform_keys 1 1 0).length = 1 ∧
      (∀ v ∈ get_uniform_keys 1 1 0, v.length = 1) ∧
      (∀ v ∈ get_uniform_keys 1 1 0, ∀ x ∈ v,
        -(1 / Real.sqrt 1) ≤ (x : ℝ) ∧ (x : ℝ) ≤ 1 / Real.sqrt 1) ∧
      get_uniform_keys 1 1 0 = get_uniform_keys 1 1 0) :=
  ⟨le_refl 1, by
    have h := get_uniform_keys_spec 1 1 0 (le_refl 1) (le_refl 1)
    exact_mod_cast h⟩

/-- Under the constructor's shape invariants and an input of shape
`lead ++ [input_dim]` with at least one leading dimension, the whole prefix
of `forward` up to the selector evaluates successfully, leaving the selector
mapped over the `lead.prod * heads` query rows. -/
theorem read_selection_eval (M : Memory) (training : Bool) (rIn rQ : ℕ → ℚ)
    (lead : List ℕ) (data : List ℚ) (hW : WF M) (hlead : lead ≠ [])
    (hdata : data.length = lead.prod * M.input_dim) :
    ∃ qs : List (List ℚ),
      qs.length = lead.prod * M.heads ∧
      (∀ qrow ∈ qs, qrow.length = M.k_dim) ∧
      read_selection M training rIn rQ (lead ++ [M.input_dim]) data =
        (qs.enum.mapM (fun e => get_indices_row M.knn M.k_dim
          (M.keys.getD (e.1 % M.heads) []) e.2)).bind (fun outs =>
            some (lead, outs)) := by
  obtain ⟨hk2, hke, hh, hkn, hid, hkl, hks, hvl, hw, hb, hbn⟩ := hW
  have hd1 : (dropoutL M.input_dropout training rIn data).length =
      lead.prod * M.input_dim := by
    rw [dropoutL_length, hdata]
  obtain ⟨hr1, hr2, -⟩ := chunks_of_length_mul (by omega) lead.prod _ hd1
  have hqrow : ∀ r ∈ (chunks M.input_dim
      (dropoutL M.input_dropout training rIn data)).map (query_proj M),
      r.length = M.heads * M.k_dim := by
    intro r hr
    rcases List.mem_map.mp hr with ⟨x, -, rfl⟩
    exact query_proj_length ⟨hk2, hke, hh, hkn, hid, hkl, hks, hvl, hw, hb, hbn⟩ x
  have hqcat : ((chunks M.input_dim
      (dropoutL M.input_dropout training rIn data)).map
      (query_proj M)).flatten.length = lead.prod * (M.heads * M.k_dim) := by
    rw [flatten_length_uniform _ hqrow, List.length_map, hr1]
  have hqf : (dropoutL M.query_dropout training rQ
      ((chunks M.input_dim (dropoutL M.input_dropout training rIn data)).map
        (query_proj M)).flatten).length = (lead.prod * M.heads) * M.k_dim := by
    rw [dropoutL_length, hqcat]
    ring
  obtain ⟨hqs1, hqs2, -⟩ :=
    chunks_of_length_mul (by omega) (lead.prod * M.heads) _ hqf
  refine ⟨_, hqs1, hqs2, ?_⟩
  unfold read_selection
  rw [if_pos (by simp), show (lead ++ [M.input_dim]).dropLast = lead from by simp,
    np_prod_ne_nil hlead]
  show (some (lead.prod * M.heads)).bind _ = _
  rw [Option.some_bind]
  rw [if_pos (by rw [hqcat]; ring), if_pos (Nat.mul_mod_left lead.prod M.heads)]

/-- **C2, counterexample.**  With zero leading batch dimensions (input shape
`[input_dim]`), `read` does not return a `[output_dim]`-shaped tensor: it
fails, because `np.prod` of the empty leading shape is the float `1.0` and
`query.view(bs * self.heads, self.k_dim)` then receives a float size argument
and raises a `TypeError`. -/
theorem forward_zero_leading_dims_fails :
    forward mex false (fun _ => 0) (fun _ => 0) (fun _ => 0) (fun _ => 1)
      [1] [1] = none := rfl

theorem table_row_length {v_dim : ℕ} {table : List (List ℚ)}
    (h : ∀ row ∈ table, row.length = v_dim) (i : ℕ) :
    (table.getD i (List.replicate v_dim 0)).length = v_dim := by
  by_cases hi : i < table.length
  · rw [List.getD_eq_getElem _ _ hi]
    exact h _ (List.getElem_mem hi)
  · rw [List.getD_eq_default _ _ (by omega)]
    exact List.length_replicate _ _

theorem embeddingBagSum_length {v_dim : ℕ} {table : List (List ℚ)}
    (h : ∀ row ∈ table, row.length = v_dim) (idcs : List ℕ) (w : List ℚ) :
    (embeddingBagSum v_dim table idcs w).length = v_dim := by
  unfold embeddingBagSum
  have hstep : ∀ (l : List (ℕ × ℚ)) (acc : List ℚ), acc.length = v_dim →
      (l.foldl (fun acc p => List.zipWith (· + ·) acc
        ((table.getD p.1 (List.replicate v_dim 0)).map
          (fun x => p.2 * x))) acc).length = v_dim := by
    intro l
    induction l with
    | nil => exact fun acc ha => ha
    | cons p l ih =>
      intro acc hacc
      rw [List.foldl_cons]
      refine ih _ ?_
      rw [List.length_zipWith, hacc, List.length_map, table_row_length h]
      omega
  exact hstep _ _ (List.length_replicate _ _)

/-- **C2 (amended).**  For every input tensor of shape `lead ++ [input_dim]`
with at least one leading batch dimension, `read` succeeds and its output has
shape `lead ++ [output_dim]` (with `lead.prod * output_dim` entries); with
zero leading dimensions the query reshape raises instead (see the
counterexample). -/
theorem forward_shape (M : Memory) (training : Bool) (rIn rQ rV : ℕ → ℚ)
    (φ : ℚ → ℚ) (lead : List ℕ) (data : List ℚ)
    (hW : WF M) (hkn : M.knn ≤ M.n_keys) (hlead : lead ≠ [])
    (hdata : data.length = lead.prod * M.input_dim) :
    ∃ out : List ℚ,
      forward M training rIn rQ rV φ (lead ++ [M.input_dim]) data =
        some (lead ++ [M.output_dim], out) ∧
      out.length = lead.prod * M.output_dim := by
  obtain ⟨qs, hqs1, hqs2, hsel⟩ :=
    read_selection_eval M training rIn rQ lead data hW hlead hdata
  obtain ⟨hk2, hke, hh, hknn1, hid, hkl, hks, hvl, hw, hb, hbn⟩ := hW
  have hsub : ∀ r : ℕ, r < M.heads →
      ((M.keys.getD r []).getD 0 []).length = M.n_keys ∧
      ((M.keys.getD r []).getD 1 []).length = M.n_keys := by
    intro r hr
    have hrk : r < M.keys.length := by omega
    have hmem : M.keys.getD r [] ∈ M.keys := by
      rw [List.getD_eq_getElem _ _ hrk]
      exact List.getElem_mem hrk
    obtain ⟨h2, hall⟩ := hks _ hmem
    constructor
    · have hlt : (0:ℕ) < (M.keys.getD r []).length := by rw [h2]; omega
      have h0 : (M.keys.getD r []).getD 0 [] ∈ M.keys.getD r [] := by
        rw [List.getD_eq_getElem _ _ hlt]
        exact List.getElem_mem hlt
      exact hall _ h0
    · have hlt : (1:ℕ) < (M.keys.getD r []).length := by rw [h2]; omega
      have h1 : (M.keys.getD r []).getD 1 [] ∈ M.keys.getD r [] := by
        rw [List.getD_eq_getElem _ _ hlt]
        exact List.getElem_mem hlt
      exact hall _ h1
  have hok : ∀ e ∈ qs.enum, (get_indices_row M.knn M.k_dim
      (M.keys.getD (e.1 % M.heads) []) e.2).isSome := by
    intro e he
    obtain ⟨i, qrow⟩ := e
    obtain ⟨hi, hq⟩ := List.mem_enum he
    have hqlen : qrow.length = M.k_dim := by
      rw [hq]
      exact hqs2 _ (List.getElem_mem hi)
    have hmod : i % M.heads < M.heads := Nat.mod_lt _ (by omega)
    obtain ⟨hl0, hl1⟩ := hsub (i % M.heads) hmod
    have h1 : M.knn ≤ (scores1 M.k_dim
        (M.keys.getD (i % M.heads) []) qrow).length := by
      rw [scores1_length, hl0]
      exact hkn
    have h2 : M.knn ≤ (scores2 M.k_dim
        (M.keys.getD (i % M.heads) []) qrow).length := by
      rw [scores2_length, hl1]
      exact hkn
    rw [get_indices_row_eq _ _ _ _ hqlen h1 h2]
    rfl
  obtain ⟨outs, houts, hfa⟩ := mapM_some_of_forall _ _ hok
  have houtlen : outs.length = lead.prod * M.heads := by
    rw [← hfa.length_eq, List.enum_length, hqs1]
  have hrowfacts : ∀ o ∈ outs, o.1.length = M.knn ∧ o.2.length = M.knn := by
    intro o ho
    obtain ⟨e, he, hfe⟩ := forall₂_mem_right hfa o ho
    obtain ⟨o1, o2⟩ := o
    exact get_indices_row_lengths hfe
  have hwrow : ∀ r ∈ outs.map (fun o => softmaxP φ o.1), r.length = M.knn := by
    intro r hr
    rcases List.mem_map.mp hr with ⟨o, ho, rfl⟩
    rw [softmaxP_length]
    exact (hrowfacts o ho).1
  have hirow : ∀ r ∈ outs.map (fun o => o.2), r.length = M.knn := by
    intro r hr
    rcases List.mem_map.mp hr with ⟨o, ho, rfl⟩
    exact (hrowfacts o ho).2
  have hwlen : (outs.map (fun o => softmaxP φ o.1)).flatten.length =
      lead.prod * (M.heads * M.knn) := by
    rw [flatten_length_uniform _ hwrow, List.length_map, houtlen]
    ring
  have hilen : (outs.map (fun o => o.2)).flatten.length =
      lead.prod * (M.heads * M.knn) := by
    rw [flatten_length_uniform _ hirow, List.length_map, houtlen]
    ring
  have hhk : 0 < M.heads * M.knn := Nat.mul_pos (by omega) (by omega)
  obtain ⟨hib1, hib2, -⟩ := chunks_of_length_mul hhk lead.prod _ hilen
  obtain ⟨hwb1, hwb2, -⟩ := chunks_of_length_mul hhk lead.prod _ hwlen
  have hzlen : ((chunks (M.heads * M.knn) (outs.map (fun o => o.2)).flatten).zip
      (chunks (M.heads * M.knn)
        (outs.map (fun o => softmaxP φ o.1)).flatten)).length = lead.prod := by
    rw [List.length_zip, hib1, hwb1, Nat.min_self]
  have houtrows : ∀ r ∈ ((chunks (M.heads * M.knn)
        (outs.map (fun o => o.2)).flatten).zip
      (chunks (M.heads * M.knn)
        (outs.map (fun o => softmaxP φ o.1)).flatten)).map
      (fun p => embeddingBagSum M.output_dim M.values p.1 p.2),
      r.length = M.output_dim := by
    intro r hr
    rcases List.mem_map.mp hr with ⟨p, -, rfl⟩
    exact embeddingBagSum_length hvl _ _
  have hflat : (((chunks (M.heads * M.knn)
        (outs.map (fun o => o.2)).flatten).zip
      (chunks (M.heads * M.knn)
        (outs.map (fun o => softmaxP φ o.1)).flatten)).map
      (fun p => embeddingBagSum M.output_dim M.values p.1 p.2)).flatten.length =
      lead.prod * M.output_dim := by
    rw [flatten_length_uniform _ houtrows, List.length_map, hzlen]
  refine ⟨dropoutL M.value_dropout training rV
    (((chunks (M.heads * M.knn) (outs.map (fun o => o.2)).flatten).zip
      (chunks (M.heads * M.knn) (outs.map (fun o => softmaxP φ o.1)).flatten)).map
        (fun p => embeddingBagSum M.output_dim M.values p.1 p.2)).flatten, ?_,
    by rw [dropoutL_length, hflat]⟩
  unfold forward
  rw [hsel, houts, Option.some_bind, Option.some_bind]
  dsimp only
  by_cases hll : 2 ≤ lead.length
  · rw [if_pos hll]
  · have h1 : lead.length = 1 := by
      have := List.length_pos.mpr hlead
      omega
    obtain ⟨a, rfl⟩ := List.length_eq_one.mp h1
    rw [if_neg hll, List.length_map, hzlen, List.prod_singleton,
      List.singleton_append]

/-- The per-head sub-key sets of a well-formed module both hold `n_keys`
vectors. -/
theorem keys_half_lengths {M : Memory} (hW : WF M) {r : ℕ} (hr : r < M.heads) :
    ((M.keys.getD r []).getD 0 []).length = M.n_keys ∧
    ((M.keys.getD r []).getD 1 []).length = M.n_keys := by
  obtain ⟨-, -, -, -, -, hkl, hks, -, -, -, -⟩ := hW
  have hrk : r < M.keys.length := by omega
  have hmem : M.keys.getD r [] ∈ M.keys := by
    rw [List.getD_eq_getElem _ _ hrk]
    exact List.getElem_mem hrk
  obtain ⟨h2, hall⟩ := hks _ hmem
  constructor
  · have hlt : (0:ℕ) < (M.keys.getD r []).length := by rw [h2]; omega
    have h0 : (M.keys.getD r []).getD 0 [] ∈ M.keys.getD r [] := by
      rw [List.getD_eq_getElem _ _ hlt]
      exact List.getElem_mem hlt
    exact hall _ h0
  · have hlt : (1:ℕ) < (M.keys.getD r []).length := by rw [h2]; omega
    have h1 : (M.keys.getD r []).getD 1 [] ∈ M.keys.getD r [] := by
      rw [List.getD_eq_getElem _ _ hlt]
      exact List.getElem_mem hlt
    exact hall _ h1

/-- **C8.**  Invalid configurations fail fast, with no partial result: an odd
or too-small `k_dim` is rejected by the constructor's assertion before any
state is built, and `knn > n_keys` makes every (nonempty) read fail inside
`topk` before producing any output. -/
theorem config_errors_fail_fast :
    (∀ (input_dim output_dim : ℕ) (p : PMParams) (values0 : List (List ℚ))
        (w0 : List (List ℚ)) (b0 : List ℚ) (bn0 : List ℚ × List ℚ),
      p.k_dim < 2 ∨ p.k_dim % 2 ≠ 0 →
      memInit input_dim output_dim p values0 w0 b0 bn0 = none) ∧
    (∀ (M : Memory) (training : Bool) (rIn rQ rV : ℕ → ℚ) (φ : ℚ → ℚ)
        (lead : List ℕ) (data : List ℚ),
      WF M → M.n_keys < M.knn → lead ≠ [] → 0 < lead.prod →
      data.length = lead.prod * M.input_dim →
      forward M training rIn rQ rV φ (lead ++ [M.input_dim]) data = none) := by
  constructor
  · intro input_dim output_dim p values0 w0 b0 bn0 h
    unfold memInit
    rw [if_neg]
    rintro ⟨h1, h2⟩
    rcases h with h | h
    · omega
    · exact h h2
  · intro M training rIn rQ rV φ lead data hW hnk hlead hpos hdata
    obtain ⟨qs, hqs1, hqs2, hsel⟩ :=
      read_selection_eval M training rIn rQ lead data hW hlead hdata
    have hh : 1 ≤ M.heads := hW.2.2.1
    have hqpos : 0 < qs.length := by
      rw [hqs1]
      exact Nat.mul_pos hpos (by omega)
    have hl0 := (keys_half_lengths hW (Nat.mod_lt 0 (show 0 < M.heads by omega))).1
    have hfail : get_indices_row M.knn M.k_dim
        (M.keys.getD (0 % M.heads) []) (qs.get ⟨0, hqpos⟩) = none := by
      unfold get_indices_row
      have hq0 : qs.get ⟨0, hqpos⟩ ∈ qs := by
        rw [List.get_eq_getElem]
        exact List.getElem_mem hqpos
      rw [if_pos (hqs2 _ hq0)]
      rw [topk_eq_none (by rw [scores1_length, hl0]; omega)]
      rfl
    have hepos : 0 < qs.enum.length := by
      rw [List.enum_length]
      omega
    have hmem : ((0 : ℕ), qs.get ⟨0, hqpos⟩) ∈ qs.enum := by
      have hm := List.getElem_mem hepos
      rw [List.getElem_enum] at hm
      exact hm
    have hmapM : qs.enum.mapM (fun e => get_indices_row M.knn M.k_dim
        (M.keys.getD (e.1 % M.heads) []) e.2) = none :=
      mapM_none_of_mem _ _ ⟨((0 : ℕ), qs.get ⟨0, hqpos⟩), hmem, hfail⟩
    unfold forward
    rw [hsel, hmapM]
    rfl

/-- Witness for C8: the constructor rejects `k_dim = 3`, and a module with
`knn = 2 > n_keys = 1` fails on a nonempty read. -/
theorem config_errors_fail_fast_witness :
    (pBad.k_dim < 2 ∨ pBad.k_dim % 2 ≠ 0) ∧
    memInit 1 1 pBad [] [] [] ([], []) = none ∧
    (WF mexBad ∧ mexBad.n_keys < mexBad.knn ∧
      forward mexBad false (fun _ => 0) (fun _ => 0) (fun _ => 0) (fun _ => 1)
        ([1] ++ [mexBad.input_dim]) [1] = none) := by
  refine ⟨by decide, ?_, by decide, by decide, ?_⟩
  · exact config_errors_fail_fast.1 1 1 pBad [] [] [] ([], []) (by decide)
  · exact config_errors_fail_fast.2 mexBad false (fun _ => 0) (fun _ => 0)
      (fun _ => 0) (fun _ => 1) [1] [1] (by decide) (by decide) (by decide)
      (by decide) (by decide)

/-- Witness for the amended C2 at `mex`, with one leading batch dimension of
size 2. -/
theorem forward_shape_witness :
    WF mex ∧ mex.knn ≤ mex.n_keys ∧ ([2] : List ℕ) ≠ [] ∧
    ([1, 1] : List ℚ).length = [2].prod * mex.input_dim ∧
    ∃ out : List ℚ,
      forward mex false (fun _ => 0) (fun _ => 0) (fun _ => 0) (fun _ => 1)
        ([2] ++ [mex.input_dim]) [1, 1] =
        some ([2] ++ [mex.output_dim], out) ∧
      out.length = [2].prod * mex.output_dim :=
  ⟨by decide, by decide, by decide, by decide,
    forward_shape mex false (fun _ => 0) (fun _ => 0) (fun _ => 0) (fun _ => 1)
      [2] [1, 1] (by decide) (by decide) (by decide) (by decide)⟩

/-! ### Softmax, selector-success inversion and flattening lemmas -/

theorem sum_map_div (xs : List ℚ) (c : ℚ) :
    (xs.map (fun e => e / c)).sum = xs.sum / c := by
  induction xs with
  | nil => simp
  | cons x xs ih => simp [ih, add_div]

theorem softmaxP_sum {φ : ℚ → ℚ} (hφ : ∀ x, 0 < φ x) {xs : List ℚ}
    (hne : xs ≠ []) : (softmaxP φ xs).sum = 1 := by
  unfold softmaxP
  rw [sum_map_div]
  have hpos : 0 < (xs.map φ).sum := by
    match xs with
    | x :: xs' =>
      simp only [List.map_cons, List.sum_cons]
      have h1 := hφ x
      have h2 : 0 ≤ (xs'.map φ).sum := by
        refine List.sum_nonneg ?_
        intro a ha
        rcases List.mem_map.mp ha with ⟨b, -, rfl⟩
        exact le_of_lt (hφ b)
      linarith
  exact div_self (ne_of_gt hpos)

theorem softmaxP_nonneg {φ : ℚ → ℚ} (hφ : ∀ x, 0 < φ x) (xs : List ℚ) :
    ∀ w ∈ softmaxP φ xs, 0 ≤ w := by
  intro w hw
  unfold softmaxP at hw
  rcases List.mem_map.mp hw with ⟨e, he, rfl⟩
  rcases List.mem_map.mp he with ⟨x, -, rfl⟩
  have hs : 0 ≤ (xs.map φ).sum := by
    refine List.sum_nonneg ?_
    intro a ha
    rcases List.mem_map.mp ha with ⟨b, -, rfl⟩
    exact le_of_lt (hφ b)
  exact div_nonneg (le_of_lt (hφ x)) hs

theorem chunks_zero {α : Type} (l : List α) : chunks 0 l = [] := by
  match l with
  | [] => exact chunks_nil 0
  | x :: xs =>
    rw [chunks]
    simp

/-- Inversion of a successful `read_selection`: the number of selector rows is
a multiple of `heads`, and each row is a successful `_get_indices` output. -/
theorem read_selection_inv {M : Memory} {training : Bool} {rIn rQ : ℕ → ℚ}
    {shape : List ℕ} {data : List ℚ} {lead : List ℕ}
    {outs : List (List ℚ × List ℕ)}
    (h : read_selection M training rIn rQ shape data = some (lead, outs)) :
    outs.length % M.heads = 0 ∧
    ∀ o ∈ outs, ∃ e : ℕ × List ℚ,
      get_indices_row M.knn M.k_dim (M.keys.getD (e.1 % M.heads) []) e.2 =
        some o := by
  unfold read_selection at h
  split at h
  case isFalse => exact absurd h (by simp)
  case isTrue hlast =>
    cases hasI : ((np_prod shape.dropLast).mulNat M.heads).asIndex with
    | none =>
      rw [hasI] at h
      exact absurd h (by simp)
    | some m =>
      rw [hasI, Option.some_bind] at h
      split at h
      case isFalse => exact absurd h (by simp)
      case isTrue hqlen =>
        split at h
        case isFalse => exact absurd h (by simp)
        case isTrue hmod =>
          cases hmap : (chunks M.k_dim (dropoutL M.query_dropout training rQ
              ((chunks M.input_dim (dropoutL M.input_dropout training rIn
                data)).map (query_proj M)).flatten)).enum.mapM
              (fun e => get_indices_row M.knn M.k_dim
                (M.keys.getD (e.1 % M.heads) []) e.2) with
          | none =>
            rw [hmap] at h
            exact absurd h (by simp)
          | some outs' =>
            rw [hmap, Option.some_bind] at h
            obtain ⟨h1, h2⟩ := Prod.mk.inj (Option.some.inj h)
            subst h2
            have hfa := mapM_eq_some_forall₂ _ _ _ hmap
            have hlen : outs'.length = (chunks M.k_dim
                (dropoutL M.query_dropout training rQ
                  ((chunks M.input_dim (dropoutL M.input_dropout training rIn
                    data)).map (query_proj M)).flatten)).length := by
              rw [← hfa.length_eq, List.enum_length]
            constructor
            · by_cases hkd : M.k_dim = 0
              · rw [hlen, hkd, chunks_zero]
                simp
              · have hql : (dropoutL M.query_dropout training rQ
                    ((chunks M.input_dim (dropoutL M.input_dropout training rIn
                      data)).map (query_proj M)).flatten).length =
                    m * M.k_dim := by
                  rw [dropoutL_length]
                  exact hqlen
                obtain ⟨hc1, -, -⟩ :=
                  chunks_of_length_mul (by omega) m _ hql
                rw [hlen, hc1]
                exact hmod
            · intro o ho
              obtain ⟨e, -, hfe⟩ := forall₂_mem_right hfa o ho
              exact ⟨e, hfe⟩

/-- Members of a successful selector output's index list decompose as
`a * n_keys + b` with in-range half indices. -/
theorem get_indices_row_mem_pair {knn k_dim : ℕ}
    {subkeys : List (List (List ℚ))} {q : List ℚ} {S : List ℚ} {I : List ℕ}
    (h : get_indices_row knn k_dim subkeys q = some (S, I)) :
    ∀ r ∈ I, ∃ a b : ℕ, a < (subkeys.getD 0 []).length ∧
      b < (subkeys.getD 1 []).length ∧
      r = a * (subkeys.getD 0 []).length + b := by
  unfold get_indices_row at h
  split at h
  case isFalse => exact absurd h (by simp)
  case isTrue hq =>
    rw [Option.bind_eq_some] at h
    obtain ⟨t1, ht1, h⟩ := h
    rw [Option.bind_eq_some] at h
    obtain ⟨t2, ht2, h⟩ := h
    rw [Option.map_eq_some'] at h
    obtain ⟨best, hbest, h⟩ := h
    obtain ⟨hS, hI⟩ := Prod.mk.inj h
    subst hI
    unfold topk at ht1 ht2 hbest
    split at ht1
    case isFalse => exact absurd ht1 (by simp)
    case isTrue hl1 =>
      split at ht2
      case isFalse => exact absurd ht2 (by simp)
      case isTrue hl2 =>
        split at hbest
        case isFalse => exact absurd hbest (by simp)
        case isTrue hlb =>
          have he1 : t1 = topkList knn (scores1 k_dim subkeys q) :=
            (Option.some.inj ht1).symm
          have he2 : t2 = topkList knn (scores2 k_dim subkeys q) :=
            (Option.some.inj ht2).symm
          have heb : best = topkList knn (allScores t1 t2) :=
            (Option.some.inj hbest).symm
          intro r hr
          rcases List.mem_map.mp hr with ⟨p, hp, rfl⟩
          rw [heb] at hp
          obtain ⟨hp2, -⟩ := topkList_mem hp
          have hlenAI : (allIndices (subkeys.getD 0 []).length t1 t2).length =
              (allScores t1 t2).length := by
            rw [allIndices_length, allScores_length]
          have hplt : p.2 <
              (allIndices (subkeys.getD 0 []).length t1 t2).length := by
            omega
          have hin : (allIndices (subkeys.getD 0 []).length t1 t2).getD p.2 0 ∈
              allIndices (subkeys.getD 0 []).length t1 t2 := by
            rw [List.getD_eq_getElem _ _ hplt]
            exact List.getElem_mem hplt
          unfold allIndices at hin
          rcases List.mem_flatMap.mp hin with ⟨a, ha, hmap⟩
          rcases List.mem_map.mp hmap with ⟨b, hb, hab⟩
          refine ⟨a, b, ?_, ?_, hab.symm⟩
          · rw [he1] at ha
            have := topkList_snd_mem_lt ha
            rwa [scores1_length] at this
          · rw [he2] at hb
            have := topkList_snd_mem_lt hb
            rwa [scores2_length] at this

/-- Index range for a selector output of a well-formed module. -/
theorem get_indices_row_index_lt {M : Memory} (hW : WF M) {e : ℕ × List ℚ}
    {o : List ℚ × List ℕ}
    (h : get_indices_row M.knn M.k_dim (M.keys.getD (e.1 % M.heads) []) e.2 =
      some o) :
    ∀ r ∈ o.2, r < M.n_keys ^ 2 := by
  have hh : 1 ≤ M.heads := hW.2.2.1
  obtain ⟨hl0, hl1⟩ := keys_half_lengths hW (Nat.mod_lt e.1 (by omega))
  intro r hr
  obtain ⟨o1, o2⟩ := o
  obtain ⟨a, b, ha, hb, rfl⟩ := get_indices_row_mem_pair h r hr
  rw [hl0] at ha ⊢
  rw [hl1] at hb
  have h1 : (a + 1) * M.n_keys ≤ M.n_keys * M.n_keys :=
    Nat.mul_le_mul_right _ (by omega)
  have h2 : a * M.n_keys + b < (a + 1) * M.n_keys := by
    rw [Nat.succ_mul]
    omega
  rw [Nat.pow_two]
  omega

theorem zipWith_add_getD {a b : List ℚ} {c : ℕ} (ha : c < a.length)
    (hb : c < b.length) :
    (List.zipWith (· + ·) a b).getD c 0 = a.getD c 0 + b.getD c 0 := by
  rw [List.getD_eq_getElem _ _ (by rw [List.length_zipWith]; omega),
    List.getElem_zipWith, List.getD_eq_getElem _ _ ha,
    List.getD_eq_getElem _ _ hb]

theorem chunks_append_exact {α : Type} {n : ℕ} (hn : 0 < n) {l₁ : List α}
    (h : l₁.length = n) (l₂ : List α) :
    chunks n (l₁ ++ l₂) = l₁ :: chunks n l₂ := by
  have hne : l₁ ++ l₂ ≠ [] := by
    intro h0
    have h1 : l₁ = [] := (List.append_eq_nil.mp h0).1
    rw [h1] at h
    simp at h
    omega
  rw [chunks_cons_ne (by omega) hne]
  congr 1
  · exact List.take_left' h
  · rw [List.drop_left' h]

/-- Grouping a flat buffer of `B * k` uniform rows of length `n` into
super-rows of `k * n` entries equals grouping the rows `k` at a time and
flattening each group — the `view(bs, heads * knn)` merge. -/
theorem chunks_mul_flatten {α : Type} {n k : ℕ} (hn : 0 < n) (hk : 0 < k) :
    ∀ (B : ℕ) (L : List (List α)), L.length = B * k →
      (∀ r ∈ L, r.length = n) →
      chunks (k * n) L.flatten = (chunks k L).map List.flatten := by
  intro B
  induction B with
  | zero =>
    intro L hL _
    have h0 : L = [] := List.eq_nil_of_length_eq_zero (by omega)
    subst h0
    rw [List.flatten_nil, chunks_nil, chunks_nil]
    rfl
  | succ B ih =>
    intro L hL hr
    have hLlen : L.length = B * k + k := by rw [hL]; ring
    have htk : (L.take k).length = k := by
      rw [List.length_take]
      omega
    have hdk : (L.drop k).length = B * k := by
      rw [List.length_drop]
      omega
    have htflat : (L.take k).flatten.length = k * n := by
      rw [flatten_length_uniform _
        (fun r hrr => hr r (List.take_subset _ _ hrr)), htk]
    have hsplitL : chunks k L = L.take k :: chunks k (L.drop k) := by
      conv_lhs => rw [← List.take_append_drop k L]
      exact chunks_append_exact hk htk _
    have hsplitF : chunks (k * n) L.flatten =
        (L.take k).flatten :: chunks (k * n) (L.drop k).flatten := by
      conv_lhs => rw [← List.take_append_drop k L, List.flatten_append]
      exact chunks_append_exact (Nat.mul_pos hk hn) htflat _
    rw [hsplitF, hsplitL, List.map_cons]
    congr 1
    exact ih (L.drop k) hdk (fun r hrr => hr r (List.drop_subset _ _ hrr))

/-- Slice `hd` of the flattening of uniform rows of length `n` is row `hd`. -/
theorem flatten_slice {α : Type} {n : ℕ} :
    ∀ (G : List (List α)), (∀ r ∈ G, r.length = n) →
      ∀ hd, hd < G.length →
        ((G.flatten.drop (hd * n)).take n) = G.getD hd [] := by
  intro G
  induction G with
  | nil =>
    intro _ hd hlt
    simp at hlt
  | cons g G ih =>
    intro h hd hlt
    have hg : g.length = n := h g (List.mem_cons_self _ _)
    cases hd with
    | zero =>
      rw [List.flatten_cons, Nat.zero_mul, List.drop_zero, List.take_left' hg]
      rfl
    | succ hd =>
      rw [List.flatten_cons]
      have hidx : (hd + 1) * n = g.length + hd * n := by
        rw [hg]
        ring
      rw [hidx, ← List.drop_drop, List.drop_left]
      rw [List.getD_cons_succ]
      exact ih (fun r hrr => h r (List.mem_cons_of_mem _ hrr)) hd
        (by simpa using hlt)

/-- **C4.**  The softmax normalizes each head's `knn` selected scores
independently: every row of the `(bs*heads, knn)` score tensor — one batch
element and one head — yields weights that are non-negative and sum to
exactly 1, and in the merged `(bs, heads*knn)` weight tensor each head's
`knn`-slice of each batch row sums to 1 on its own, not merely the whole
concatenation. -/
theorem softmax_per_head (M : Memory) (training : Bool) (rIn rQ : ℕ → ℚ)
    (φ : ℚ → ℚ) (shape : List ℕ) (data : List ℚ) (lead : List ℕ)
    (outs : List (List ℚ × List ℕ))
    (hφ : ∀ x, 0 < φ x) (hknn : 1 ≤ M.knn) (hh : 1 ≤ M.heads)
    (hsel : read_selection M training rIn rQ shape data = some (lead, outs)) :
    (∀ o ∈ outs, (softmaxP φ o.1).sum = 1 ∧ (∀ w ∈ softmaxP φ o.1, 0 ≤ w) ∧
      (softmaxP φ o.1).length = M.knn) ∧
    ∀ wrow ∈ chunks (M.heads * M.knn)
        (outs.map (fun o => softmaxP φ o.1)).flatten,
      ∀ hd, hd < M.heads → ((wrow.drop (hd * M.knn)).take M.knn).sum = 1 := by
  obtain ⟨hdiv, hrows⟩ := read_selection_inv hsel
  have hlen : ∀ o ∈ outs, o.1.length = M.knn := by
    intro o ho
    obtain ⟨e, he⟩ := hrows o ho
    obtain ⟨o1, o2⟩ := o
    exact (get_indices_row_lengths he).1
  have hone : ∀ o ∈ outs, (softmaxP φ o.1).sum = 1 ∧
      (∀ w ∈ softmaxP φ o.1, 0 ≤ w) ∧ (softmaxP φ o.1).length = M.knn := by
    intro o ho
    have hne : o.1 ≠ [] := by
      intro h0
      have hl := hlen o ho
      rw [h0] at hl
      simp at hl
      omega
    exact ⟨softmaxP_sum hφ hne, softmaxP_nonneg hφ _, by
      rw [softmaxP_length]
      exact hlen o ho⟩
  refine ⟨hone, ?_⟩
  have hWrows : ∀ r ∈ outs.map (fun o => softmaxP φ o.1), r.length = M.knn := by
    intro r hr
    rcases List.mem_map.mp hr with ⟨o, ho, rfl⟩
    exact (hone o ho).2.2
  have hB : (outs.map (fun o => softmaxP φ o.1)).length =
      (outs.length / M.heads) * M.heads := by
    rw [List.length_map]
    exact (Nat.div_mul_cancel (Nat.dvd_of_mod_eq_zero hdiv)).symm
  have hgrp := chunks_mul_flatten (show 0 < M.knn by omega)
    (show 0 < M.heads by omega) (outs.length / M.heads)
    (outs.map (fun o => softmaxP φ o.1)) hB hWrows
  intro wrow hw hd hhd
  rw [hgrp] at hw
  rcases List.mem_map.mp hw with ⟨G, hG, rfl⟩
  obtain ⟨hc1, hc2, hc3⟩ := chunks_of_length_mul (show 0 < M.heads by omega)
    (outs.length / M.heads) (outs.map (fun o => softmaxP φ o.1)) hB
  have hGlen : G.length = M.heads := hc2 G hG
  have hGrows : ∀ r ∈ G, r.length = M.knn := by
    intro r hr
    refine hWrows r ?_
    rw [← hc3]
    exact List.mem_flatten.mpr ⟨G, hG, hr⟩
  rw [flatten_slice G hGrows hd (by omega)]
  have hGd : hd < G.length := by omega
  have hmem : G.getD hd [] ∈ outs.map (fun o => softmaxP φ o.1) := by
    rw [← hc3]
    refine List.mem_flatten.mpr ⟨G, hG, ?_⟩
    rw [List.getD_eq_getElem _ _ hGd]
    exact List.getElem_mem hGd
  rcases List.mem_map.mp hmem with ⟨o, ho, heq⟩
  rw [← heq]
  exact (hone o ho).1

/-- Witness for C4 at a concrete evaluation-mode run of `mex` on one batch
row. -/
theorem softmax_per_head_witness :
    read_selection mex false (fun _ => 0) (fun _ => 0) [1, 1] [1] =
      some ([1], [([2], [0])]) ∧
    ((∀ o ∈ [(([2], [0]) : List ℚ × List ℕ)],
        (softmaxP (fun _ => 1) o.1).sum = 1 ∧
        (∀ w ∈ softmaxP (fun _ => 1) o.1, 0 ≤ w) ∧
        (softmaxP (fun _ => 1) o.1).length = mex.knn) ∧
      ∀ wrow ∈ chunks (mex.heads * mex.knn)
          ([(([2], [0]) : List ℚ × List ℕ)].map
            (fun o => softmaxP (fun _ => 1) o.1)).flatten,
        ∀ hd, hd < mex.heads →
          ((wrow.drop (hd * mex.knn)).take mex.knn).sum = 1) := by
  have hsel : read_selection mex false (fun _ => 0) (fun _ => 0) [1, 1] [1] =
      some ([1], [([2], [0])]) := by
    norm_num [read_selection, mex, np_prod, PyNum.mulNat, PyNum.asIndex,
      dropoutL, chunks, query_proj, linearRow, bnEval, dot, get_indices_row,
      topk, topkList, enumScores, scores1, scores2, allScores, allIndices,
      pkLe, List.insertionSort, List.orderedInsert, List.mapM_cons,
      List.mapM_nil, List.mapM, List.mapM.loop]
  exact ⟨hsel, softmax_per_head mex false (fun _ => 0) (fun _ => 0)
    (fun _ => 1) [1, 1] [1] [1] [([2], [0])] (fun _ => one_pos)
    (by decide) (by decide) hsel⟩

/-- The `EmbeddingBag` fold, coordinate by coordinate: starting from `acc`,
it adds `Σ_r (Σ_{k : idx_k = r} w_k) · table[r][c]`. -/
theorem ebag_fold_getD {v_dim N : ℕ} {table : List (List ℚ)}
    (hrows : ∀ row ∈ table, row.length = v_dim) :
    ∀ (l : List (ℕ × ℚ)) (acc : List ℚ), acc.length = v_dim →
      (∀ p ∈ l, p.1 < N) → ∀ c, c < v_dim →
      (l.foldl (fun acc p => List.zipWith (· + ·) acc
        ((table.getD p.1 (List.replicate v_dim 0)).map (fun x => p.2 * x)))
        acc).getD c 0 =
      acc.getD c 0 + ∑ r ∈ Finset.range N,
        ((l.filter (fun q => q.1 = r)).map Prod.snd).sum *
          (table.getD r (List.replicate v_dim 0)).getD c 0 := by
  intro l
  induction l with
  | nil =>
    intro acc hacc hin c hc
    simp
  | cons p l ih =>
    intro acc hacc hin c hc
    rw [List.foldl_cons]
    have hacc' : (List.zipWith (· + ·) acc
        ((table.getD p.1 (List.replicate v_dim 0)).map
          (fun x => p.2 * x))).length = v_dim := by
      rw [List.length_zipWith, hacc, List.length_map, table_row_length hrows]
      omega
    rw [ih _ hacc' (fun q hq => hin q (List.mem_cons_of_mem _ hq)) c hc]
    rw [zipWith_add_getD (by omega)
      (by rw [List.length_map, table_row_length hrows]; omega)]
    rw [map_getD_lt _ _ 0 0 (by rw [table_row_length hrows]; omega)]
    have hsplit : ∀ r : ℕ,
        (((p :: l).filter (fun q => q.1 = r)).map Prod.snd).sum =
        (if p.1 = r then p.2 else 0) +
          ((l.filter (fun q => q.1 = r)).map Prod.snd).sum := by
      intro r
      by_cases hpr : p.1 = r
      · rw [List.filter_cons_of_pos (by simpa using hpr), List.map_cons,
          List.sum_cons, if_pos hpr]
      · rw [List.filter_cons_of_neg (by simpa using hpr), if_neg hpr,
          zero_add]
    have hre : (∑ r ∈ Finset.range N,
        (((p :: l).filter (fun q => q.1 = r)).map Prod.snd).sum *
          (table.getD r (List.replicate v_dim 0)).getD c 0) =
        ∑ r ∈ Finset.range N,
          ((if p.1 = r then p.2 else 0) *
              (table.getD r (List.replicate v_dim 0)).getD c 0 +
            ((l.filter (fun q => q.1 = r)).map Prod.snd).sum *
              (table.getD r (List.replicate v_dim 0)).getD c 0) := by
      refine Finset.sum_congr rfl (fun r _ => ?_)
      rw [hsplit r, add_mul]
    rw [hre, Finset.sum_add_distrib]
    have hone : (∑ r ∈ Finset.range N,
        (if p.1 = r then p.2 else 0) *
          (table.getD r (List.replicate v_dim 0)).getD c 0) =
        p.2 * (table.getD p.1 (List.replicate v_dim 0)).getD c 0 := by
      have hsum : ∀ r ∈ Finset.range N,
          (if p.1 = r then p.2 else 0) *
            (table.getD r (List.replicate v_dim 0)).getD c 0 =
          if p.1 = r then
            p.2 * (table.getD r (List.replicate v_dim 0)).getD c 0
          else 0 := by
        intro r _
        by_cases hpr : p.1 = r
        · rw [if_pos hpr, if_pos hpr]
        · rw [if_neg hpr, if_neg hpr, zero_mul]
      rw [Finset.sum_congr rfl hsum, Finset.sum_ite_eq]
      rw [if_pos (Finset.mem_range.mpr (hin p (List.mem_cons_self _ _)))]
    rw [hone]
    ring

/-- One `EmbeddingBag` bag, coordinate by coordinate, grouped by row index:
duplicate indices contribute the sum of their weights. -/
theorem embeddingBagSum_grouped {v_dim N : ℕ} {table : List (List ℚ)}
    (hrows : ∀ row ∈ table, row.length = v_dim)
    (idcs : List ℕ) (w : List ℚ)
    (hidx : ∀ p ∈ idcs.zip w, p.1 < N) :
    ∀ c, c < v_dim →
      (embeddingBagSum v_dim table idcs w).getD c 0 =
        ∑ r ∈ Finset.range N,
          (((idcs.zip w).filter (fun q => q.1 = r)).map Prod.snd).sum *
            (table.getD r (List.replicate v_dim 0)).getD c 0 := by
  intro c hc
  unfold embeddingBagSum
  rw [ebag_fold_getD hrows _ _ (List.length_replicate _ _) hidx c hc]
  rw [List.getD_eq_getElem _ _ (by rw [List.length_replicate]; omega),
    List.getElem_replicate, zero_add]

/-- **C3.**  In evaluation mode the output of `read` is exactly the weighted
sum of the selected Value Table rows under the returned post-softmax weights:
`forward` returns precisely the flattened per-batch `EmbeddingBag` sums, and
each output coordinate of each batch row equals
`Σ_r (Σ_{k : index_k = r} weight_k) · values[r][c]` over the value-table row
indices, so duplicate rows selected within one call (for example by different
heads) contribute the sum of their weighted values. -/
theorem forward_row_sum (M : Memory) (rIn rQ rV : ℕ → ℚ) (φ : ℚ → ℚ)
    (shape : List ℕ) (data : List ℚ) (lead : List ℕ)
    (outs : List (List ℚ × List ℕ))
    (hW : WF M)
    (hsel : read_selection M false rIn rQ shape data = some (lead, outs)) :
    forward M false rIn rQ rV φ shape data =
      some ((if 2 ≤ lead.length then lead ++ [M.output_dim]
          else [(((chunks (M.heads * M.knn)
              (outs.map (fun o => o.2)).flatten).zip
            (chunks (M.heads * M.knn)
              (outs.map (fun o => softmaxP φ o.1)).flatten)).map
              (fun p => embeddingBagSum M.output_dim M.values p.1 p.2)).length,
            M.output_dim]),
        (((chunks (M.heads * M.knn) (outs.map (fun o => o.2)).flatten).zip
          (chunks (M.heads * M.knn)
            (outs.map (fun o => softmaxP φ o.1)).flatten)).map
            (fun p => embeddingBagSum M.output_dim M.values p.1 p.2)).flatten) ∧
    ∀ p ∈ (chunks (M.heads * M.knn) (outs.map (fun o => o.2)).flatten).zip
        (chunks (M.heads * M.knn)
          (outs.map (fun o => softmaxP φ o.1)).flatten),
      ∀ c, c < M.output_dim →
        (embeddingBagSum M.output_dim M.values p.1 p.2).getD c 0 =
          ∑ r ∈ Finset.range (M.n_keys ^ 2),
            (((p.1.zip p.2).filter (fun q => q.1 = r)).map Prod.snd).sum *
              (M.values.getD r (List.replicate M.output_dim 0)).getD c 0 := by
  constructor
  · unfold forward
    rw [hsel, Option.some_bind]
    rfl
  · obtain ⟨hdiv, hrows⟩ := read_selection_inv hsel
    have hvl : ∀ row ∈ M.values, row.length = M.output_dim :=
      hW.2.2.2.2.2.2.2.1
    have hh : 1 ≤ M.heads := hW.2.2.1
    have hknn1 : 1 ≤ M.knn := hW.2.2.2.1
    have hlenrows : ∀ r ∈ outs.map (fun o => o.2), r.length = M.knn := by
      intro r hr
      rcases List.mem_map.mp hr with ⟨o, ho, rfl⟩
      obtain ⟨e, he⟩ := hrows o ho
      obtain ⟨o1, o2⟩ := o
      exact (get_indices_row_lengths he).2
    have hflatlen : (outs.map (fun o => o.2)).flatten.length =
        (outs.length / M.heads) * (M.heads * M.knn) := by
      rw [flatten_length_uniform _ hlenrows, List.length_map]
      conv_lhs => rw [← Nat.div_mul_cancel (Nat.dvd_of_mod_eq_zero hdiv)]
      ring
    obtain ⟨hic1, hic2, hic3⟩ := chunks_of_length_mul
      (Nat.mul_pos (by omega) (by omega)) (outs.length / M.heads) _ hflatlen
    intro p hp c hc
    obtain ⟨p1, p2⟩ := p
    have hp1 : p1 ∈ chunks (M.heads * M.knn)
        (outs.map (fun o => o.2)).flatten := (List.of_mem_zip hp).1
    have hidx : ∀ q ∈ p1.zip p2, q.1 < M.n_keys ^ 2 := by
      intro q hq
      obtain ⟨q1, q2⟩ := q
      have hq1 : q1 ∈ p1 := (List.of_mem_zip hq).1
      have hq2 : q1 ∈ (outs.map (fun o => o.2)).flatten := by
        rw [← hic3]
        exact List.mem_flatten.mpr ⟨p1, hp1, hq1⟩
      rcases List.mem_flatten.mp hq2 with ⟨row, hrow, hqrow⟩
      rcases List.mem_map.mp hrow with ⟨o, ho, hoe⟩
      obtain ⟨e, he⟩ := hrows o ho
      refine get_indices_row_index_lt hW he q1 ?_
      rw [hoe]
      exact hqrow
    exact embeddingBagSum_grouped hvl p1 p2 hidx c hc

/-- Witness for C3 at a concrete evaluation-mode run of `mex`: the single
selected bag is row 0 with weight 1. -/
theorem forward_row_sum_witness :
    WF mex ∧
    read_selection mex false (fun _ => 0) (fun _ => 0) [1, 1] [1] =
      some ([1], [([2], [0])]) ∧
    ∀ c, c < mex.output_dim →
      (embeddingBagSum mex.output_dim mex.values [0] [1]).getD c 0 =
        ∑ r ∈ Finset.range (mex.n_keys ^ 2),
          (((([0] : List ℕ).zip ([1] : List ℚ)).filter
            (fun q => q.1 = r)).map Prod.snd).sum *
            (mex.values.getD r (List.replicate mex.output_dim 0)).getD c 0 := by
  have hsel : read_selection mex false (fun _ => 0) (fun _ => 0) [1, 1] [1] =
      some ([1], [([2], [0])]) := by
    norm_num [read_selection, mex, np_prod, PyNum.mulNat, PyNum.asIndex,
      dropoutL, chunks, query_proj, linearRow, bnEval, dot, get_indices_row,
      topk, topkList, enumScores, scores1, scores2, allScores, allIndices,
      pkLe, List.insertionSort, List.orderedInsert, List.mapM_cons,
      List.mapM_nil, List.mapM, List.mapM.loop]
  have hmem : ((([0] : List ℕ), ([1] : List ℚ))) ∈
      (chunks (mex.heads * mex.knn)
        ([(([2], [0]) : List ℚ × List ℕ)].map (fun o => o.2)).flatten).zip
      (chunks (mex.heads * mex.knn)
        ([(([2], [0]) : List ℚ × List ℕ)].map
          (fun o => softmaxP (fun _ => 1) o.1)).flatten) := by
    norm_num [chunks, softmaxP, mex]
  exact ⟨by decide, hsel, fun c hc =>
    (forward_row_sum mex (fun _ => 0) (fun _ => 0) (fun _ => 0) (fun _ => 1)
      [1, 1] [1] [1] [([2], [0])] (by decide) hsel).2
      (([0] : List ℕ), ([1] : List ℚ)) hmem c hc⟩

end PKM
